import Mathlib

/-!
Verification of the SPDX license-expression parser / policy evaluator
(`src/helpers/spdx_expression_parser.py`) and the multi-strategy license
resolver (`src/helpers/license_resolver.py`) of the sbom_auditor_action
repository, as a shallow embedding in Lean.

Python strings are modelled as Lean `String` / `List Char`; Python dicts
(in insertion order) as association lists; `None`-able results as `Option`;
Python truthiness of an optional string as `py_truthy`.  The recursive
descent parser is modelled with an explicit fuel argument that decreases at
every call (the top entry point supplies `4 * tokens.length + 4`, which is
enough fuel; running out is mapped to the source's `except` branch).  The
recursion of `parse_and_evaluate` through combined aliases is genuinely
unbounded in the source, so the top entry point keeps its own fuel and
`none` models non-termination.
-/

namespace SbomAudit

/-- Python `str.strip()` on a list of characters. -/
def strip_chars (cs : List Char) : List Char :=
  ((cs.dropWhile Char.isWhitespace).reverse.dropWhile Char.isWhitespace).reverse

/-- Python `str.strip()`. -/
def py_strip (s : String) : String := String.mk (strip_chars s.toList)

/-- Python `str.lower()` (ASCII case folding). -/
def py_lower (s : String) : String := String.mk (s.toList.map Char.toLower)

/-- The apostrophe character used by the source inside explanation strings. -/
def quote_char : Char := Char.ofNat 39

/-- The apostrophe as a one-character string. -/
def quote_str : String := String.mk [quote_char]

/-- Python `str.rstrip(c)`: remove every trailing occurrence of `c`. -/
def py_rstrip (c : Char) (s : String) : String :=
  String.mk ((s.toList.reverse.dropWhile (· == c)).reverse)

/-- Python `s.strip(c)` for a single character: drop `c` from both ends. -/
def py_strip_char (c : Char) (s : String) : String :=
  String.mk (((s.toList.dropWhile (· == c)).reverse.dropWhile (· == c)).reverse)

/-- First component of Python `s.split(sep)` for a one-character separator:
everything before the first occurrence of `c` (the whole string if absent). -/
def py_split_head (c : Char) (s : String) : String :=
  String.mk (s.toList.takeWhile (· != c))

/-- Membership of a character in a string, Python `c in s`. -/
def str_has_char (c : Char) (s : String) : Bool := s.toList.contains c

/-- `1*(ALPHA / DIGIT / "-" / ".")` on characters, the source's
`IDSTRING_PATTERN`. -/
def is_idstring_chars (cs : List Char) : Bool :=
  !cs.isEmpty && cs.all (fun c => c.isAlphanum || c == '-' || c == '.')

/-- Split a character list at the first colon, if any. -/
def split_first_colon : List Char → Option (List Char × List Char)
  | [] => none
  | c :: rest =>
    if c == ':' then some ([], rest)
    else
      match split_first_colon rest with
      | some (a, b) => some (c :: a, b)
      | none => none

/-- The source's `LICENSE_REF_PATTERN`:
`^(?:DocumentRef-(idstring):)?LicenseRef-(idstring)$`. -/
def is_license_ref (s : String) : Bool :=
  let cs := s.toList
  if "LicenseRef-".toList.isPrefixOf cs then is_idstring_chars (cs.drop 11)
  else if "DocumentRef-".toList.isPrefixOf cs then
    match split_first_colon (cs.drop 12) with
    | some (d, t) =>
      is_idstring_chars d && "LicenseRef-".toList.isPrefixOf t &&
        is_idstring_chars (t.drop 11)
    | none => false
  else false

/-- The source's `ADDITION_REF_PATTERN`:
`^(?:DocumentRef-(idstring):)?AdditionRef-(idstring)$`. -/
def is_addition_ref (s : String) : Bool :=
  let cs := s.toList
  if "AdditionRef-".toList.isPrefixOf cs then is_idstring_chars (cs.drop 12)
  else if "DocumentRef-".toList.isPrefixOf cs then
    match split_first_colon (cs.drop 12) with
    | some (d, t) =>
      is_idstring_chars d && "AdditionRef-".toList.isPrefixOf t &&
        is_idstring_chars (t.drop 12)
    | none => false
  else false

/-- `TokenType` of the source, a closed enumeration. -/
inductive TokenType where
  | LICENSE_ID
  | LICENSE_REF
  | ADDITION_REF
  | PLUS
  | AND
  | OR
  | WITH
  | LPAREN
  | RPAREN
  | EOF
deriving DecidableEq, Repr

/-- `TokenType.name` as used by `Token.__repr__`. -/
def TokenType.pyName : TokenType → String
  | .LICENSE_ID => "LICENSE_ID"
  | .LICENSE_REF => "LICENSE_REF"
  | .ADDITION_REF => "ADDITION_REF"
  | .PLUS => "PLUS"
  | .AND => "AND"
  | .OR => "OR"
  | .WITH => "WITH"
  | .LPAREN => "LPAREN"
  | .RPAREN => "RPAREN"
  | .EOF => "EOF"

/-- A token `{type, value, position}` of the source. -/
structure Token where
  type : TokenType
  value : String
  position : Nat
deriving DecidableEq, Repr

/-- `Token.__repr__`, used in the "Unexpected token" explanation. -/
def Token.pyRepr (t : Token) : String :=
  "Token(" ++ t.type.pyName ++ ", " ++ quote_str ++ t.value ++ quote_str ++ ")"

/-- Classify a collected identifier, as the tokenizer does. -/
def classify_id (s : String) : TokenType :=
  if is_license_ref s then .LICENSE_REF
  else if is_addition_ref s then .ADDITION_REF
  else .LICENSE_ID

/-- A standalone `+` after whitespace is AND when it is also followed by
whitespace or the end of the input. -/
def plus_is_and (rest : List Char) : Bool :=
  match rest with
  | [] => true
  | d :: _ => d.isWhitespace

/-- `w/` recognition: `remaining.lower().startswith('w/')` together with the
boundary check `len(remaining) == 2 or remaining[2].isspace()`. -/
def is_w_slash (cs : List Char) : Bool :=
  match cs with
  | a :: b :: rest =>
    a.toLower == 'w' && b.toLower == '/' &&
      (match rest with
       | [] => true
       | d :: _ => d.isWhitespace)
  | _ => false

/-- Boundary after an operator word: whitespace, `(`, or end of input. -/
def op_boundary_ok (rest : List Char) : Bool :=
  match rest with
  | [] => true
  | c :: _ => c.isWhitespace || c == '('

/-- The operator scan of the tokenizer: `AND/and`, `OR/or`, `WITH/with` in
exactly these casings, followed by whitespace, `(`, or end of input.  Returns
the token type, the matched text and its length. -/
def match_operator (cs : List Char) : Option (TokenType × String × Nat) :=
  if ("AND".toList.isPrefixOf cs || "and".toList.isPrefixOf cs) &&
      op_boundary_ok (cs.drop 3) then
    some (.AND, String.mk (cs.take 3), 3)
  else if ("OR".toList.isPrefixOf cs || "or".toList.isPrefixOf cs) &&
      op_boundary_ok (cs.drop 2) then
    some (.OR, String.mk (cs.take 2), 2)
  else if ("WITH".toList.isPrefixOf cs || "with".toList.isPrefixOf cs) &&
      op_boundary_ok (cs.drop 4) then
    some (.WITH, String.mk (cs.take 4), 4)
  else none

/-- The identifier-collection loop: characters up to whitespace, a
parenthesis, or a `+` that is followed by whitespace or the end of input.
Returns the collected characters and the rest. -/
def collect_id : List Char → List Char × List Char
  | [] => ([], [])
  | c :: rest =>
    if c.isWhitespace || c == '(' || c == ')' then ([], c :: rest)
    else if c == '+' && plus_is_and rest then ([], c :: rest)
    else
      match collect_id rest with
      | (ids, r) => (c :: ids, r)

/-- Main tokenizer loop over the stripped expression.  `pos` is the current
character index, `hw` records whether the previous character was whitespace.
The fuel decreases by one per step; `tokenize` supplies `length + 1`, and
every step consumes at least one character, so the fuel never runs out there
(the fuel-out value duplicates the end-of-input value). -/
def tokenize_loop : Nat → List Char → Nat → Bool → List Token
  | 0, _, pos, _ => [⟨.EOF, "", pos⟩]
  | _ + 1, [], pos, _ => [⟨.EOF, "", pos⟩]
  | f + 1, c :: rest, pos, hw =>
    if c.isWhitespace then tokenize_loop f rest (pos + 1) true
    else if c == '(' then ⟨.LPAREN, "(", pos⟩ :: tokenize_loop f rest (pos + 1) false
    else if c == ')' then ⟨.RPAREN, ")", pos⟩ :: tokenize_loop f rest (pos + 1) false
    else if c == '+' then
      (if hw then
        (if plus_is_and rest then (⟨.AND, "+", pos⟩ : Token) else ⟨.PLUS, "+", pos⟩)
       else ⟨.PLUS, "+", pos⟩) :: tokenize_loop f rest (pos + 1) false
    else if is_w_slash (c :: rest) then
      ⟨.WITH, "w/", pos⟩ :: tokenize_loop f (rest.drop 1) (pos + 2) false
    else
      match match_operator (c :: rest) with
      | some (t, v, n) =>
        ⟨t, v, pos⟩ :: tokenize_loop f ((c :: rest).drop n) (pos + n) false
      | none =>
        match collect_id (c :: rest) with
        | (ids, r) =>
          if 0 < ids.length then
            ⟨classify_id (String.mk ids), String.mk ids, pos⟩ ::
              tokenize_loop f r (pos + ids.length) false
          else tokenize_loop f r pos false

/-- `_tokenize` of the source: strip the expression, scan it, and always end
with exactly one EOF token positioned at the end. -/
def tokenize (expression : String) : List Token :=
  let stripped := py_strip expression
  tokenize_loop (stripped.toList.length + 1) stripped.toList 0 false

/-- A policy entry `{id, usagePolicy}`.  The source reads these fields out of
dicts (`policy.get('id', '')`, `policy.get('usagePolicy')`); usage policies are
plain strings there, so they are strings here too. -/
structure Policy where
  id : String
  usagePolicy : String
deriving DecidableEq, Repr

/-- Parser state shared per run: the (lowercase-keyed) license alias map and
combined alias map, in insertion order. -/
structure Ctx where
  licenseAliases : List (String × String)
  combinedAliases : List (String × String)
deriving Repr

/-- Dict lookup on an association list (first binding wins, as in a dict
whose keys are unique; the source's dicts cannot hold duplicate keys). -/
def alias_lookup (m : List (String × String)) (k : String) : Option String :=
  match m.find? (fun p => p.1 == k) with
  | some p => some p.2
  | none => none

/-- The parser constructor: keys are lowercased and `_comment` entries are
dropped from both alias maps. -/
def mk_ctx (licenseAliases combinedAliases : List (String × String)) : Ctx :=
  ⟨(licenseAliases.filter (fun p => p.1 != "_comment")).map
      (fun p => (py_lower p.1, p.2)),
   (combinedAliases.filter (fun p => p.1 != "_comment")).map
      (fun p => (py_lower p.1, p.2))⟩

/-- Python truthiness of an `Optional[str]`: `None` and `""` are falsy. -/
def py_truthy : Option String → Bool
  | none => false
  | some s => s != ""

/-- `_normalize_license_id`: case-insensitive single-token alias lookup on
the stripped id; the input is returned (stripped) when absent, and unchanged
when empty. -/
def normalize_license_id (aliases : List (String × String)) (license_id : String) :
    String :=
  if license_id == "" then license_id
  else
    let stripped := py_strip license_id
    match alias_lookup aliases (py_lower stripped) with
    | some result => result
    | none => stripped

/-- The or-later variant scan of `_find_license_policy`: try each variant id
case-insensitively against every policy, in order. -/
def find_variant (variants : List String) (policies : List Policy) : Option String :=
  match variants with
  | [] => none
  | v :: vs =>
    match policies.find? (fun p => py_lower p.id == py_lower v) with
    | some p => some p.usagePolicy
    | none => find_variant vs policies

/-- `_find_license_policy`: exact match (against the alias-normalized and the
original id), then case-insensitive match, then — only with the or-later
flag — the `-only` / `-or-later` / bare variants. -/
def find_license_policy (ctx : Ctx) (license_id : String) (policies : List Policy)
    (or_later : Bool) : Option String :=
  let original_id := py_rstrip '+' license_id
  let normalized_id := normalize_license_id ctx.licenseAliases original_id
  match policies.find? (fun p => p.id == normalized_id || p.id == original_id) with
  | some p => some p.usagePolicy
  | none =>
    let normalized_lower := py_lower normalized_id
    let original_lower := py_lower original_id
    match policies.find? (fun p =>
        py_lower p.id == normalized_lower || py_lower p.id == original_lower) with
    | some p => some p.usagePolicy
    | none =>
      if or_later then
        let base := (original_id.replace "-only" "").replace "-or-later" ""
        find_variant [base ++ "-only", base ++ "-or-later", base] policies
      else none

mutual
/-- `\d+(\.\d+)*` to the end of input: at least one digit must follow. -/
def ver_group : List Char → Bool
  | [] => false
  | c :: rest => c.isDigit && ver_after_digit rest
/-- `\d*(\.\d+)*` to the end of input, one digit already consumed. -/
def ver_after_digit : List Char → Bool
  | [] => true
  | c :: rest =>
    if c.isDigit then ver_after_digit rest
    else if c == '.' then ver_group rest
    else false
end

/-- Whether a character list is exactly `-\d+(\.\d+)*` (a trailing version
suffix as in `re.sub(r'-\d+(\.\d+)*$', '', ...)`). -/
def is_version_suffix (cs : List Char) : Bool :=
  match cs with
  | '-' :: rest => ver_group rest
  | _ => false

/-- The leftmost start index of a match of `-\d+(\.\d+)*$`, scanning from the
front as the regex engine does. -/
def version_suffix_from : List Char → Option Nat
  | [] => none
  | c :: rest =>
    if is_version_suffix (c :: rest) then some 0
    else
      match version_suffix_from rest with
      | some i => some (i + 1)
      | none => none

/-- `re.sub(r'-\d+(\.\d+)*$', '', s)`: drop a trailing version suffix. -/
def strip_version_suffix (s : String) : String :=
  match version_suffix_from s.toList with
  | some i => String.mk (s.toList.take i)
  | none => s

/-- `_find_with_policy`: try the combined forms of a base license and an
exception against the policy table, case-insensitively. -/
def find_with_policy (ctx : Ctx) (base_license exception : String)
    (policies : List Policy) : Option String :=
  let base_normalized := normalize_license_id ctx.licenseAliases base_license
  let exception_normalized := normalize_license_id ctx.licenseAliases exception
  let combined_forms :=
    [base_normalized ++ "-with-" ++ exception_normalized,
     base_normalized ++ " WITH " ++ exception_normalized]
  let exception_base := strip_version_suffix exception_normalized
  let combined_forms :=
    if exception_base != exception_normalized then
      combined_forms ++
        [base_normalized ++ "-with-" ++ exception_base,
         base_normalized ++ "-with-" ++ exception_base ++ "-exception"]
    else combined_forms
  find_variant combined_forms policies

/-- Lookbehind boundary of the alias-substitution pattern: start of string,
whitespace, `(`, or `)`. -/
def boundary_before : Option Char → Bool
  | none => true
  | some c => c.isWhitespace || c == '(' || c == ')'

/-- Lookahead boundary of the alias-substitution pattern: end of string,
whitespace, `)`, or `(`. -/
def boundary_after : List Char → Bool
  | [] => true
  | c :: _ => c.isWhitespace || c == ')' || c == '('

/-- Case-insensitive literal prefix match (`re.IGNORECASE` on an escaped
alias key). -/
def matches_ci : List Char → List Char → Bool
  | [], _ => true
  | _ :: _, [] => false
  | a :: as1, b :: bs => a.toLower == b.toLower && matches_ci as1 bs

/-- One `pattern.sub(spdx_id, result)` pass: scan the original characters
left to right, replacing every non-overlapping boundary-delimited
case-insensitive occurrence of the (nonempty) key `k :: ks` by `val`.
`prev` is the original character before the scan position (for the
lookbehind). -/
def subst_alias_loop (k : Char) (ks : List Char) (val : List Char) :
    Option Char → List Char → List Char
  | _, [] => []
  | prev, c :: rest =>
    let klen := ks.length + 1
    if boundary_before prev && matches_ci (k :: ks) (c :: rest) &&
        boundary_after ((c :: rest).drop klen) then
      val ++ subst_alias_loop k ks val (((c :: rest).take klen).getLast?)
        ((c :: rest).drop klen)
    else c :: subst_alias_loop k ks val (some c) rest
termination_by _ cs => cs.length
decreasing_by
  · simp only [List.length_drop, List.length_cons]
    omega
  · simp only [List.length_cons]
    omega

/-- Substitute one alias key inside the expression (the keys reaching this
always contain a space or comma, hence are nonempty; an empty key would match
nothing meaningful and is returned unchanged). -/
def subst_alias (key val s : String) : String :=
  match key.toList with
  | [] => s
  | k :: ks => String.mk (subst_alias_loop k ks val.toList none s.toList)

/-- The filter of `_apply_aliases_to_expression`: only aliases whose key has
a space or comma (non-SPDX shaped names). -/
def space_aliases (aliases : List (String × String)) : List (String × String) :=
  aliases.filter (fun p =>
    str_has_char ' ' p.1 || str_has_char ',' p.1 || p.1 != p.1.replace " " "")

/-- Stable insertion for a longest-key-first sort (Python's stable
`sorted(..., key=len, reverse=True)`). -/
def insert_len_desc (x : String × String) :
    List (String × String) → List (String × String)
  | [] => [x]
  | y :: ys =>
    if y.1.toList.length ≤ x.1.toList.length then x :: y :: ys
    else y :: insert_len_desc x ys

/-- Sort aliases by key length, longest first, stably. -/
def sort_len_desc (l : List (String × String)) : List (String × String) :=
  l.foldr insert_len_desc []

/-- `_apply_aliases_to_expression`: boundary-aware, case-insensitive,
longest-first substitution of every space/comma alias key in the whole
expression. -/
def apply_aliases_to_expression (ctx : Ctx) (expression : String) : String :=
  if expression == "" || ctx.licenseAliases.isEmpty then expression
  else
    let sa := space_aliases ctx.licenseAliases
    if sa.isEmpty then expression
    else
      (sort_len_desc sa).foldl (fun acc kv => subst_alias kv.1 kv.2 acc) expression

/-- A parse result `(policy, explanation, new_position)`. -/
abbrev ParseResult := String × String × Nat

/-- The sentinel strings of `parse_and_evaluate` that short-circuit before
tokenization. -/
def no_license_sentinels : List String := ["NO-LICENSE-FOUND", "NOASSERTION", "NONE"]

mutual

/-- `_parse_or_expression`: one or more AND-expressions separated by OR;
with two or more branches, allow if any branch allows, deny if all deny,
otherwise needs-review.  Fuel decreases at every call; `none` is fuel
exhaustion (never reached from `parse_and_evaluate`'s fuel). -/
def parse_or_expression : Nat → List Token → Nat → List Policy → Ctx →
    Option ParseResult
  | 0, _, _, _, _ => none
  | f + 1, tokens, pos, policies, ctx =>
    match parse_and_expression f tokens pos policies ctx with
    | none => none
    | some (left_policy, left_expl, pos1) =>
      match or_loop f tokens pos1 policies ctx with
      | none => none
      | some (more, pos2) =>
        let results := (left_policy, left_expl) :: more
        if results.length = 1 then some (left_policy, left_expl, pos2)
        else
          let ps := results.map Prod.fst
          let es := String.intercalate "; " (results.map Prod.snd)
          if ps.any (fun p => p == "allow") then
            some ("allow", "OR: at least one allowed (" ++ es ++ ")", pos2)
          else if ps.all (fun p => p == "deny") then
            some ("deny", "OR: all denied (" ++ es ++ ")", pos2)
          else
            some ("needs-review", "OR: none allowed (" ++ es ++ ")", pos2)
termination_by structural f _ _ _ _ => f

/-- The OR collection loop: while the current token is OR, consume it and the
following AND-expression. -/
def or_loop : Nat → List Token → Nat → List Policy → Ctx →
    Option (List (String × String) × Nat)
  | 0, _, _, _, _ => none
  | f + 1, tokens, pos, policies, ctx =>
    match tokens[pos]? with
    | some t =>
      if t.type = .OR then
        match parse_and_expression f tokens (pos + 1) policies ctx with
        | none => none
        | some (p, e, pos1) =>
          match or_loop f tokens pos1 policies ctx with
          | none => none
          | some (rs, pos2) => some ((p, e) :: rs, pos2)
      else some ([], pos)
    | none => some ([], pos)
termination_by structural f _ _ _ _ => f

/-- `_parse_and_expression`: one or more WITH-expressions separated by AND;
with two or more branches, allow only if all branches allow, deny if any
branch denies, otherwise needs-review. -/
def parse_and_expression : Nat → List Token → Nat → List Policy → Ctx →
    Option ParseResult
  | 0, _, _, _, _ => none
  | f + 1, tokens, pos, policies, ctx =>
    match parse_with_expression f tokens pos policies ctx with
    | none => none
    | some (left_policy, left_expl, pos1) =>
      match and_loop f tokens pos1 policies ctx with
      | none => none
      | some (more, pos2) =>
        let results := (left_policy, left_expl) :: more
        if results.length = 1 then some (left_policy, left_expl, pos2)
        else
          let ps := results.map Prod.fst
          let es := String.intercalate "; " (results.map Prod.snd)
          if ps.all (fun p => p == "allow") then
            some ("allow", "AND: all allowed (" ++ es ++ ")", pos2)
          else if ps.any (fun p => p == "deny") then
            some ("deny", "AND: at least one denied (" ++ es ++ ")", pos2)
          else
            some ("needs-review", "AND: some need review (" ++ es ++ ")", pos2)
termination_by structural f _ _ _ _ => f

/-- The AND collection loop: while the current token is AND, consume it and
the following WITH-expression. -/
def and_loop : Nat → List Token → Nat → List Policy → Ctx →
    Option (List (String × String) × Nat)
  | 0, _, _, _, _ => none
  | f + 1, tokens, pos, policies, ctx =>
    match tokens[pos]? with
    | some t =>
      if t.type = .AND then
        match parse_with_expression f tokens (pos + 1) policies ctx with
        | none => none
        | some (p, e, pos1) =>
          match and_loop f tokens pos1 policies ctx with
          | none => none
          | some (rs, pos2) => some ((p, e) :: rs, pos2)
      else some ([], pos)
    | none => some ([], pos)
termination_by structural f _ _ _ _ => f

/-- `_parse_with_expression`: a simple expression, optionally followed by
WITH and an exception id.  A configured combined-form policy wins outright;
otherwise the WITH clause inherits the base policy. -/
def parse_with_expression : Nat → List Token → Nat → List Policy → Ctx →
    Option ParseResult
  | 0, _, _, _, _ => none
  | f + 1, tokens, pos, policies, ctx =>
    match parse_simple_expression f tokens pos policies ctx with
    | none => none
    | some (base_policy, base_expl, pos1) =>
      match tokens[pos1]? with
      | some t =>
        if t.type = .WITH then
          let pos2 := pos1 + 1
          match tokens[pos2]? with
          | some t2 =>
            if t2.type = .LICENSE_ID ∨ t2.type = .ADDITION_REF then
              let exception_id := t2.value
              let pos3 := pos2 + 1
              let base_id :=
                if str_has_char quote_char base_expl then
                  py_split_head quote_char (py_strip_char quote_char base_expl)
                else base_expl
              let combined := find_with_policy ctx base_id exception_id policies
              if py_truthy combined then
                some (combined.getD "",
                  quote_str ++ base_id ++ " WITH " ++ exception_id ++ quote_str, pos3)
              else if base_policy == "allow" then
                some ("allow", quote_str ++ base_id ++ quote_str ++ " WITH " ++
                  quote_str ++ exception_id ++ quote_str ++ " (base allowed)", pos3)
              else if base_policy == "deny" then
                some ("deny", quote_str ++ base_id ++ quote_str ++ " WITH " ++
                  quote_str ++ exception_id ++ quote_str ++ " (base denied)", pos3)
              else
                some ("needs-review", quote_str ++ base_id ++ quote_str ++ " WITH " ++
                  quote_str ++ exception_id ++ quote_str ++ " (base needs review)", pos3)
            else some (base_policy, base_expl, pos2)
          | none => some (base_policy, base_expl, pos2)
        else some (base_policy, base_expl, pos1)
      | none => some (base_policy, base_expl, pos1)
termination_by structural f _ _ _ _ => f

/-- `_parse_simple_expression`: parenthesized expression (a missing closing
parenthesis is tolerated), a LicenseRef, a license id with optional `+`, or
an "Unexpected token" / "Empty expression" needs-review result. -/
def parse_simple_expression : Nat → List Token → Nat → List Policy → Ctx →
    Option ParseResult
  | 0, _, _, _, _ => none
  | f + 1, tokens, pos, policies, ctx =>
    match tokens[pos]? with
    | none => some ("needs-review", "Empty expression", pos)
    | some token =>
      if token.type = .EOF then some ("needs-review", "Empty expression", pos)
      else if token.type = .LPAREN then
        match parse_or_expression f tokens (pos + 1) policies ctx with
        | none => none
        | some (policy, expl, pos1) =>
          let pos2 :=
            match tokens[pos1]? with
            | some t => if t.type = .RPAREN then pos1 + 1 else pos1
            | none => pos1
          some (policy, "(" ++ expl ++ ")", pos2)
      else if token.type = .LICENSE_REF then
        let license_ref := token.value
        let policy := find_license_policy ctx license_ref policies false
        if py_truthy policy then
          some (policy.getD "", quote_str ++ license_ref ++ quote_str, pos + 1)
        else
          some ("needs-review",
            quote_str ++ license_ref ++ quote_str ++ " (custom license reference)",
            pos + 1)
      else if token.type = .LICENSE_ID then
        let license_id := token.value
        let pos1 := pos + 1
        let step :
            Bool × Nat :=
          match tokens[pos1]? with
          | some t => if t.type = .PLUS then (true, pos1 + 1) else (false, pos1)
          | none => (false, pos1)
        let or_later := step.1
        let pos2 := step.2
        let display_id := license_id ++ (if or_later then "+" else "")
        let policy := find_license_policy ctx license_id policies or_later
        if py_truthy policy then
          some (policy.getD "", quote_str ++ display_id ++ quote_str, pos2)
        else
          some ("needs-review",
            quote_str ++ display_id ++ quote_str ++ " (no policy)", pos2)
      else some ("needs-review", "Unexpected token: " ++ token.pyRepr, pos)
termination_by structural f _ _ _ _ => f

end

/-- `_parse_expression`: entry into the precedence climb. -/
def parse_expression (f : Nat) (tokens : List Token) (pos : Nat)
    (policies : List Policy) (ctx : Ctx) : Option ParseResult :=
  parse_or_expression f tokens pos policies ctx

/-- Fuel that always suffices for the grammar over a given token list
(every call strictly decreases fuel, and positions advance). -/
def grammar_fuel (tokens : List Token) : Nat := 4 * tokens.length + 4

/-- `parse_and_evaluate`, the public evaluation entry point.  Its own fuel
bounds only the combined-alias recursion (unbounded in the source); `none`
models non-termination of that recursion.  Grammar fuel exhaustion — which
`grammar_fuel` rules out — is mapped to the source's `except` branch. -/
def parse_and_evaluate : Nat → Ctx → String → List Policy → Option (String × String)
  | 0, _, _, _ => none
  | f + 1, ctx, expression, policies =>
    if expression == "" || no_license_sentinels.contains expression then
      some ("needs-review", "No license found")
    else
      let expr1 := py_strip expression
      match alias_lookup ctx.combinedAliases (py_lower expr1) with
      | some resolved => parse_and_evaluate f ctx resolved policies
      | none =>
        let expr2 := apply_aliases_to_expression ctx expr1
        let tokens := tokenize expr2
        match parse_expression (grammar_fuel tokens) tokens 0 policies ctx with
        | some (p, e, _) => some (p, e)
        | none =>
          some ("needs-review", "Failed to parse license expression: " ++ expr2)

/-- A resolution result `{original, resolved, method, confidence}` of the
license resolver; confidences are the source's literals, as rationals. -/
structure ResolutionResult where
  original : String
  resolved : Option String
  method : String
  confidence : ℚ
deriving DecidableEq, Repr

/-- `resolve_license`, the public resolution entry point.  The two
strategies — `_fuzzy_match_spdx` (which internally covers exact, pattern and
fuzzy SPDX matching against the fetched reference table) and
`_ai_resolve_license` — depend on network state, so they are taken as
function parameters; the wrapper logic is the source's. -/
def resolve_license (fuzzy ai : String → Option String)
    (license_name : String) : ResolutionResult :=
  if license_name == "" || py_strip license_name == "" then
    ⟨license_name, none, "empty", 0⟩
  else
    match fuzzy license_name with
    | some m => ⟨license_name, some m, "spdx_fuzzy", 9 / 10⟩
    | none =>
      match ai license_name with
      | some m => ⟨license_name, some m, "ai_assisted", 7 / 10⟩
      | none => ⟨license_name, none, "unresolved", 0⟩

/-- The spec's six resolution methods, in the source's spelling where one
exists.  The source folds exact and pattern matching into `_fuzzy_match_spdx`
and never reports the first two strings; they carry the spec's conceptual
confidence 1.0. -/
def resolution_methods : List String :=
  ["exact_match", "pattern_match", "spdx_fuzzy", "ai_assisted", "unresolved", "empty"]

/-- The fixed per-method confidence demanded by the spec. -/
def method_confidence : String → ℚ
  | "exact_match" => 1
  | "pattern_match" => 1
  | "spdx_fuzzy" => 9 / 10
  | "ai_assisted" => 7 / 10
  | _ => 0

/-- The three usage-policy values. -/
def usage_policies : List String := ["allow", "deny", "needs-review"]

/-- A well-formed policy table: every entry's usage policy is one of the
three values (the spec's `PolicyEntry` type). -/
def wf_policies (policies : List Policy) : Prop :=
  ∀ p ∈ policies, p.usagePolicy ∈ usage_policies

/-- Whether the combined-alias rewriting chain starting at an expression
reaches, within the given number of steps, either a sentinel or an
expression that is no longer a combined-alias key (i.e. the recursion of
`parse_and_evaluate` through combined aliases terminates). -/
def alias_chain_terminates : Nat → Ctx → String → Bool
  | 0, _, _ => false
  | f + 1, ctx, expression =>
    if expression == "" || no_license_sentinels.contains expression then true
    else
      match alias_lookup ctx.combinedAliases (py_lower (py_strip expression)) with
      | some resolved => alias_chain_terminates f ctx resolved
      | none => true

/-- Non-termination of evaluation: no amount of fuel makes the entry point
return. -/
def evaluation_diverges (ctx : Ctx) (expression : String)
    (policies : List Policy) : Prop :=
  ∀ fuel, parse_and_evaluate fuel ctx expression policies = none

/-- A combined-alias table mapping the expression `x` back onto itself. -/
def cyclic_ctx : Ctx := mk_ctx [] [("x", "x")]

/-!
Complete expressions at the token level, mirroring the compound-expression
grammar the source documents and implements (four precedence levels):
`simple-expression` is a license id, a license id with an or-later `+`, a
license ref, or a parenthesized compound; a WITH form attaches an exception
id; AND chains WITH forms; OR chains AND forms.  The operator and
parenthesis token values and positions are arbitrary, as the evaluator only
inspects token types there.
-/
mutual
/-- Token segments forming one `simple-expression` (with its optional
or-later `+` and with parenthesized compounds). -/
inductive SimpleExpr : List Token → Prop where
  | id : ∀ (v : String) (p : Nat), SimpleExpr [⟨.LICENSE_ID, v, p⟩]
  | idPlus : ∀ (v : String) (p : Nat) (w : String) (q : Nat),
      SimpleExpr [⟨.LICENSE_ID, v, p⟩, ⟨.PLUS, w, q⟩]
  | ref : ∀ (v : String) (p : Nat), SimpleExpr [⟨.LICENSE_REF, v, p⟩]
  | paren : ∀ (l : String) (lp : Nat) (inner : List Token) (r : String) (rp : Nat),
      OrExpr inner →
      SimpleExpr (⟨.LPAREN, l, lp⟩ :: inner ++ [⟨.RPAREN, r, rp⟩])
/-- Token segments forming a WITH-expression: a simple expression with an
optional `WITH exception-id` clause. -/
inductive WithExpr : List Token → Prop where
  | base : ∀ ts, SimpleExpr ts → WithExpr ts
  | withExc : ∀ ts (w : String) (wp : Nat) (t2 : Token), SimpleExpr ts →
      (t2.type = .LICENSE_ID ∨ t2.type = .ADDITION_REF) →
      WithExpr (ts ++ [⟨.WITH, w, wp⟩, t2])
/-- Zero or more `AND with-expression` continuations. -/
inductive AndTail : List Token → Prop where
  | nil : AndTail []
  | cons : ∀ (a : String) (ap : Nat) ts tail, WithExpr ts → AndTail tail →
      AndTail (⟨.AND, a, ap⟩ :: ts ++ tail)
/-- Token segments forming an AND-expression. -/
inductive AndExpr : List Token → Prop where
  | mk : ∀ ts tail, WithExpr ts → AndTail tail → AndExpr (ts ++ tail)
/-- Zero or more `OR and-expression` continuations. -/
inductive OrTail : List Token → Prop where
  | nil : OrTail []
  | cons : ∀ (o : String) (op : Nat) ts tail, AndExpr ts → OrTail tail →
      OrTail (⟨.OR, o, op⟩ :: ts ++ tail)
/-- Token segments forming a complete (OR-level) expression. -/
inductive OrExpr : List Token → Prop where
  | mk : ∀ ts tail, AndExpr ts → OrTail tail → OrExpr (ts ++ tail)
end

/-- The optional token at a stream position is not of the given type. -/
def not_after (o : Option Token) (ty : TokenType) : Prop :=
  ∀ t, o = some t → t.type ≠ ty

/-- Boundary condition after a simple expression: the next token cannot be
consumed as an or-later `+`. -/
def bnd_simple (o : Option Token) : Prop := not_after o .PLUS

/-- Boundary condition after a WITH-expression. -/
def bnd_with (o : Option Token) : Prop := bnd_simple o ∧ not_after o .WITH

/-- Boundary condition after an AND-expression. -/
def bnd_and (o : Option Token) : Prop := bnd_with o ∧ not_after o .AND

/-- Boundary condition after a complete expression: the following token is
not joined to it by any operator. -/
def bnd_or (o : Option Token) : Prop := bnd_and o ∧ not_after o .OR

/-- The token stream carries the segment `ts` starting at position `pos`. -/
def seg_at (tokens : List Token) (pos : Nat) (ts : List Token) : Prop :=
  ∀ i, i < ts.length → tokens[pos + i]? = ts[i]?

/-- The parse of a simple-expression segment yields `(p, e)` and stops at
the segment end, in every stream carrying the segment with a non-`+`
boundary, for every sufficient fuel: the result depends only on the
segment. -/
def simple_parses (ts : List Token) (policies : List Policy) (ctx : Ctx)
    (p e : String) : Prop :=
  ∀ tokens pos fuel, seg_at tokens pos ts →
    bnd_simple tokens[pos + ts.length]? → 4 * ts.length + 1 ≤ fuel →
    parse_simple_expression fuel tokens pos policies ctx =
      some (p, e, pos + ts.length)

/-- Stream-independent parse result of a WITH-expression segment. -/
def with_parses (ts : List Token) (policies : List Policy) (ctx : Ctx)
    (p e : String) : Prop :=
  ∀ tokens pos fuel, seg_at tokens pos ts →
    bnd_with tokens[pos + ts.length]? → 4 * ts.length + 2 ≤ fuel →
    parse_with_expression fuel tokens pos policies ctx =
      some (p, e, pos + ts.length)

/-- Stream-independent collected results of the AND loop over a tail
segment. -/
def and_loop_parses (tail : List Token) (policies : List Policy) (ctx : Ctx)
    (rs : List (String × String)) : Prop :=
  ∀ tokens pos fuel, seg_at tokens pos tail →
    bnd_and tokens[pos + tail.length]? → 4 * tail.length + 1 ≤ fuel →
    and_loop fuel tokens pos policies ctx = some (rs, pos + tail.length)

/-- Stream-independent parse result of an AND-expression segment. -/
def and_parses (ts : List Token) (policies : List Policy) (ctx : Ctx)
    (p e : String) : Prop :=
  ∀ tokens pos fuel, seg_at tokens pos ts →
    bnd_and tokens[pos + ts.length]? → 4 * ts.length + 3 ≤ fuel →
    parse_and_expression fuel tokens pos policies ctx =
      some (p, e, pos + ts.length)

/-- Stream-independent collected results of the OR loop over a tail
segment. -/
def or_loop_parses (tail : List Token) (policies : List Policy) (ctx : Ctx)
    (rs : List (String × String)) : Prop :=
  ∀ tokens pos fuel, seg_at tokens pos tail →
    bnd_or tokens[pos + tail.length]? → 4 * tail.length + 1 ≤ fuel →
    or_loop fuel tokens pos policies ctx = some (rs, pos + tail.length)

/-- Stream-independent parse result of a complete expression segment. -/
def or_parses (ts : List Token) (policies : List Policy) (ctx : Ctx)
    (p e : String) : Prop :=
  ∀ tokens pos fuel, seg_at tokens pos ts →
    bnd_or tokens[pos + ts.length]? → 4 * ts.length + 4 ≤ fuel →
    parse_or_expression fuel tokens pos policies ctx =
      some (p, e, pos + ts.length)

/-- Name for the base-id extraction of the WITH clause (a subterm of
`parse_with_expression`, named for use in lemma statements):
`base_expl.strip("'").split("'")[0] if "'" in base_expl else base_expl`. -/
def with_base_id (base_expl : String) : String :=
  if str_has_char quote_char base_expl then
    py_split_head quote_char (py_strip_char quote_char base_expl)
  else base_expl

/-- Name for the policy computed by the WITH clause (a subterm of
`parse_with_expression`): the combined-form policy if truthy, otherwise the
base policy passed through. -/
def with_clause_policy (ctx : Ctx) (policies : List Policy)
    (bp base_id exc : String) : String :=
  if py_truthy (find_with_policy ctx base_id exc policies) then
    (find_with_policy ctx base_id exc policies).getD ""
  else if bp == "allow" then "allow"
  else if bp == "deny" then "deny"
  else "needs-review"

/-- Name for the explanation produced by the WITH clause (a subterm of
`parse_with_expression`). -/
def with_clause_expl (ctx : Ctx) (policies : List Policy)
    (bp base_id exc : String) : String :=
  if py_truthy (find_with_policy ctx base_id exc policies) then
    quote_str ++ base_id ++ " WITH " ++ exc ++ quote_str
  else if bp == "allow" then
    quote_str ++ base_id ++ quote_str ++ " WITH " ++ quote_str ++ exc ++
      quote_str ++ " (base allowed)"
  else if bp == "deny" then
    quote_str ++ base_id ++ quote_str ++ " WITH " ++ quote_str ++ exc ++
      quote_str ++ " (base denied)"
  else
    quote_str ++ base_id ++ quote_str ++ " WITH " ++ quote_str ++ exc ++
      quote_str ++ " (base needs review)"

/-- Name for the result `_parse_and_expression` assembles from its first
operand and the further operands collected by the AND loop. -/
def agg_and (lp le : String) (rs : List (String × String)) : String × String :=
  if rs.isEmpty then (lp, le)
  else
    let results := (lp, le) :: rs
    let ps := results.map Prod.fst
    let es := String.intercalate "; " (results.map Prod.snd)
    if ps.all (fun p => p == "allow") then
      ("allow", "AND: all allowed (" ++ es ++ ")")
    else if ps.any (fun p => p == "deny") then
      ("deny", "AND: at least one denied (" ++ es ++ ")")
    else ("needs-review", "AND: some need review (" ++ es ++ ")")

/-- Name for the result `_parse_or_expression` assembles from its first
operand and the further operands collected by the OR loop. -/
def agg_or (lp le : String) (rs : List (String × String)) : String × String :=
  if rs.isEmpty then (lp, le)
  else
    let results := (lp, le) :: rs
    let ps := results.map Prod.fst
    let es := String.intercalate "; " (results.map Prod.snd)
    if ps.any (fun p => p == "allow") then
      ("allow", "OR: at least one allowed (" ++ es ++ ")")
    else if ps.all (fun p => p == "deny") then
      ("deny", "OR: all denied (" ++ es ++ ")")
    else ("needs-review", "OR: none allowed (" ++ es ++ ")")

/-! ## Shared helper lemmas -/

theorem find?_ext {α : Type} (l : List α) (f g : α → Bool)
    (h : ∀ a, f a = g a) : l.find? f = l.find? g := by
  induction l with
  | nil => rfl
  | cons a t ih =>
    by_cases ha : f a = true
    · rw [List.find?_cons_of_pos _ ha, List.find?_cons_of_pos _ (h a ▸ ha)]
    · rw [List.find?_cons_of_neg _ ha,
        List.find?_cons_of_neg _ (by rw [← h a]; exact ha), ih]

theorem dropWhile_eq_self_of_head {α : Type} (p : α → Bool) (l : List α)
    (h : ∀ a, l.head? = some a → p a = false) : l.dropWhile p = l := by
  cases l with
  | nil => rfl
  | cons a t =>
    have := h a rfl
    simp [List.dropWhile_cons, this]

theorem dropWhile_self_dropWhile {α : Type} (p : α → Bool) (l : List α) :
    (l.dropWhile p).dropWhile p = l.dropWhile p := by
  apply dropWhile_eq_self_of_head
  intro a ha
  have := List.head?_dropWhile_not p l
  rw [ha] at this
  exact this

theorem strip_chars_idem (cs : List Char) :
    strip_chars (strip_chars cs) = strip_chars cs := by
  unfold strip_chars
  set A := cs.dropWhile Char.isWhitespace with hA
  set B := A.reverse.dropWhile Char.isWhitespace with hB
  have h1 : B.reverse.dropWhile Char.isWhitespace = B.reverse := by
    apply dropWhile_eq_self_of_head
    intro a ha
    rw [List.head?_reverse] at ha
    cases hBe : B with
    | nil => rw [hBe] at ha; simp at ha
    | cons b bs =>
      have hBne : B ≠ [] := by rw [hBe]; simp
      have hsuf : B <:+ A.reverse := by rw [hB]; exact List.dropWhile_suffix _
      have hAne : A.reverse ≠ [] := by
        intro hc
        rw [hc] at hsuf
        exact hBne (List.suffix_nil.mp hsuf)
      have hlast : B.getLast hBne = A.reverse.getLast hAne :=
        List.IsSuffix.getLast hsuf hBne
      have hga : B.getLast? = some a := ha
      rw [List.getLast?_eq_getLast B hBne] at hga
      have ha2 : a = A.reverse.getLast hAne := by
        rw [← hlast]; exact (Option.some_inj.mp hga).symm
      have hAne2 : A ≠ [] := by
        intro hc; apply hAne; rw [hc]; rfl
      have hhead : A.reverse.getLast hAne = A.head hAne2 := by
        rw [List.getLast_reverse]
      rw [ha2, hhead]
      exact List.head_dropWhile_not Char.isWhitespace cs hAne2
  rw [h1, List.reverse_reverse, dropWhile_self_dropWhile]

theorem py_strip_idem (s : String) : py_strip (py_strip s) = py_strip s := by
  unfold py_strip
  simp only [String.toList]
  show String.mk (strip_chars (strip_chars s.data)) = String.mk (strip_chars s.data)
  rw [strip_chars_idem]

theorem find_variant_mem (variants : List String) (policies : List Policy) (v : String)
    (h : find_variant variants policies = some v) :
    ∃ p ∈ policies, p.usagePolicy = v := by
  induction variants with
  | nil => simp [find_variant] at h
  | cons x xs ih =>
    rw [find_variant] at h
    cases hf : policies.find? (fun p => py_lower p.id == py_lower x) with
    | some p =>
      rw [hf] at h
      exact ⟨p, List.mem_of_find?_eq_some hf, Option.some_inj.mp h⟩
    | none => rw [hf] at h; exact ih h

theorem find_license_policy_mem (ctx : Ctx) (license_id : String)
    (policies : List Policy) (or_later : Bool) (v : String)
    (h : find_license_policy ctx license_id policies or_later = some v) :
    ∃ p ∈ policies, p.usagePolicy = v := by
  simp only [find_license_policy] at h
  split at h
  · rename_i p hp
    exact ⟨p, List.mem_of_find?_eq_some hp, Option.some_inj.mp h⟩
  · split at h
    · rename_i p hp
      exact ⟨p, List.mem_of_find?_eq_some hp, Option.some_inj.mp h⟩
    · split at h
      · exact find_variant_mem _ _ _ h
      · simp at h

theorem find_with_policy_mem (ctx : Ctx) (b e : String) (policies : List Policy)
    (v : String) (h : find_with_policy ctx b e policies = some v) :
    ∃ p ∈ policies, p.usagePolicy = v := by
  simp only [find_with_policy] at h
  split at h <;> exact find_variant_mem _ _ _ h

/-! ## Claim theorems -/

/-- C8: evaluating the empty string or one of the exact sentinel strings
`NOASSERTION`, `NONE`, `NO-LICENSE-FOUND` yields NeedsReview with the fixed
explanation "No license found", for every alias context and policy table —
in particular independently of them, so neither the tokenizer, nor the
grammar, nor the policy lookup is consulted. -/
theorem c8_sentinel_short_circuit (fuel : Nat) (ctx : Ctx)
    (policies : List Policy) (s : String)
    (h : s = "" ∨ s ∈ no_license_sentinels) :
    parse_and_evaluate (fuel + 1) ctx s policies =
      some ("needs-review", "No license found") := by
  have hc : (s == "" || no_license_sentinels.contains s) = true := by
    rcases h with h | h
    · simp [h]
    · simp only [no_license_sentinels, List.mem_cons, List.not_mem_nil,
        or_false] at h
      rcases h with h | h | h <;> subst h <;> decide
  rw [parse_and_evaluate, if_pos hc]

/-- Witness for C8 at the concrete sentinel `NOASSERTION`. -/
theorem c8_sentinel_short_circuit_witness :
    parse_and_evaluate 1 (mk_ctx [] []) "NOASSERTION" [⟨"MIT", "allow"⟩] =
      some ("needs-review", "No license found") :=
  c8_sentinel_short_circuit 0 (mk_ctx [] []) [⟨"MIT", "allow"⟩] "NOASSERTION"
    (Or.inr (by decide))

/-- C5: for every pair of injected strategies and every license name, the
method of the resolver's result is one of the six spec methods, and its
confidence is exactly the fixed confidence of that method (0.9 fuzzy,
0.7 AI-assisted, 0 unresolved/empty; the exact/pattern methods never occur,
so their conceptual confidence 1.0 holds vacuously). -/
theorem c5_method_and_confidence (fuzzy ai : String → Option String)
    (license_name : String) :
    (resolve_license fuzzy ai license_name).method ∈ resolution_methods ∧
      (resolve_license fuzzy ai license_name).confidence =
        method_confidence (resolve_license fuzzy ai license_name).method := by
  unfold resolve_license
  split
  · exact ⟨show "empty" ∈ resolution_methods by decide, rfl⟩
  · cases fuzzy license_name with
    | some m => exact ⟨show "spdx_fuzzy" ∈ resolution_methods by decide, rfl⟩
    | none =>
      cases ai license_name with
      | some m => exact ⟨show "ai_assisted" ∈ resolution_methods by decide, rfl⟩
      | none => exact ⟨show "unresolved" ∈ resolution_methods by decide, rfl⟩

/-- C7: the resolver is a total function returning a `ResolutionResult` for
every input (so it cannot raise); an empty or whitespace-only input yields
the fixed Empty result for all injected strategies — hence without invoking
any of them — and when all strategies fail on a non-blank input, the result
is unresolved with no resolved id and confidence 0. -/
theorem c7_resolver_empty_unresolved (fuzzy ai : String → Option String)
    (license_name : String) :
    (py_strip license_name = "" →
      resolve_license fuzzy ai license_name = ⟨license_name, none, "empty", 0⟩) ∧
    (py_strip license_name ≠ "" → fuzzy license_name = none →
      ai license_name = none →
      resolve_license fuzzy ai license_name =
        ⟨license_name, none, "unresolved", 0⟩) := by
  constructor
  · intro hb
    unfold resolve_license
    rw [if_pos]
    simp [hb]
  · intro hb hf ha
    unfold resolve_license
    rw [if_neg, hf, ha]
    simp only [Bool.or_eq_true, beq_iff_eq]
    rintro (h | h)
    · rw [h] at hb; exact hb rfl
    · exact hb h

/-- Witness for C7: the blank input `" "` and a non-blank input on which
both strategies fail. -/
theorem c7_resolver_empty_unresolved_witness :
    resolve_license (fun _ => none) (fun _ => none) " " =
        ⟨" ", none, "empty", 0⟩ ∧
      resolve_license (fun _ => none) (fun _ => none) "Zzz License" =
        ⟨"Zzz License", none, "unresolved", 0⟩ :=
  ⟨(c7_resolver_empty_unresolved (fun _ => none) (fun _ => none) " ").1 (by decide),
   (c7_resolver_empty_unresolved (fun _ => none) (fun _ => none) "Zzz License").2
     (by decide) rfl rfl⟩

/-- The alias map of the C9 counterexample: a chain `a → b → c` (keys
lowercase, as the constructor guarantees). -/
def chain_aliases : List (String × String) := [("a", "b"), ("b", "c")]

/-- C9 counterexample: `normalizeId` is not idempotent for every alias map —
with the chain `a → b → c`, normalizing `a` once gives `b` but twice gives
`c`. -/
theorem c9_counterexample :
    normalize_license_id chain_aliases (normalize_license_id chain_aliases "a") ≠
      normalize_license_id chain_aliases "a" := by decide

/-- C9 amended: `normalizeId` is idempotent for every alias map whose values
are themselves fixed points of `normalizeId` (in particular whenever no alias
value is again an alias key with a different target — the intended shape of
the table); on such maps `normalizeId (normalizeId x) = normalizeId x` for
every string `x`. -/
theorem normalize_license_id_eq (aliases : List (String × String)) (x : String) :
    normalize_license_id aliases x =
      if x == "" then x
      else
        match alias_lookup aliases (py_lower (py_strip x)) with
        | some result => result
        | none => py_strip x := rfl

theorem c9_normalize_idempotent (aliases : List (String × String))
    (hfix : ∀ kv ∈ aliases, normalize_license_id aliases kv.2 = kv.2)
    (x : String) :
    normalize_license_id aliases (normalize_license_id aliases x) =
      normalize_license_id aliases x := by
  by_cases hx : (x == "") = true
  · rw [normalize_license_id_eq aliases x, if_pos hx,
      normalize_license_id_eq, if_pos hx]
  · rw [normalize_license_id_eq aliases x, if_neg hx]
    cases hl : alias_lookup aliases (py_lower (py_strip x)) with
    | some v =>
      show normalize_license_id aliases v = v
      unfold alias_lookup at hl
      cases hf : aliases.find? (fun p => p.1 == py_lower (py_strip x)) with
      | some kv =>
        rw [hf] at hl
        have hv := Option.some_inj.mp hl
        rw [← hv]
        exact hfix kv (List.mem_of_find?_eq_some hf)
      | none => rw [hf] at hl; simp at hl
    | none =>
      show normalize_license_id aliases (py_strip x) = py_strip x
      rw [normalize_license_id_eq]
      by_cases hps : (py_strip x == "") = true
      · rw [if_pos hps]
      · rw [if_neg hps, py_strip_idem, hl]

/-- Witness for C9 amended: a concrete alias map with fixed-point values and
a concrete input. -/
theorem c9_normalize_idempotent_witness :
    normalize_license_id [("mit license", "MIT")]
        (normalize_license_id [("mit license", "MIT")] " Mit License ") =
      normalize_license_id [("mit license", "MIT")] " Mit License " :=
  c9_normalize_idempotent [("mit license", "MIT")] (by decide) " Mit License "

/-- C4 counterexample: with a combined-alias table mapping the expression
`x` back onto itself, the `evaluate` entry point does not terminate on the
input `x` (no fuel bound returns a result), so an internal failure — here
non-termination — does escape for such tables; the claim is false as
stated. -/
theorem c4_counterexample : evaluation_diverges cyclic_ctx "x" [] := by
  intro fuel
  induction fuel with
  | zero => rfl
  | succ f ih =>
    rw [parse_and_evaluate]
    rw [if_neg (by decide)]
    have hl : alias_lookup cyclic_ctx.combinedAliases (py_lower (py_strip "x")) =
        some "x" := by decide
    simp only [hl]
    exact ih

/-- C4 amended: for every input whose combined-alias rewriting chain
terminates (in particular whenever no combined alias maps an expression back
onto itself along the chain from the input), the `evaluate` entry point
returns a structured (policy, explanation) result; inside that scope every
internal parse failure is converted to a NeedsReview result rather than
escaping.  The original claim fails only on cyclic combined-alias chains
(`c4_counterexample`). -/
theorem c4_evaluate_total_on_terminating_chains (fuel : Nat) (ctx : Ctx)
    (policies : List Policy) :
    ∀ expression, alias_chain_terminates fuel ctx expression = true →
      ∃ r, parse_and_evaluate fuel ctx expression policies = some r := by
  induction fuel with
  | zero => intro e h; simp [alias_chain_terminates] at h
  | succ f ih =>
    intro e h
    rw [alias_chain_terminates] at h
    rw [parse_and_evaluate]
    by_cases hs : (e == "" || no_license_sentinels.contains e) = true
    · rw [if_pos hs]
      exact ⟨_, rfl⟩
    · rw [if_neg hs]
      rw [if_neg hs] at h
      cases hl : alias_lookup ctx.combinedAliases (py_lower (py_strip e)) with
      | some resolved =>
        rw [hl] at h
        simp only [hl]
        exact ih resolved h
      | none =>
        simp only [hl]
        cases parse_expression
            (grammar_fuel (tokenize (apply_aliases_to_expression ctx (py_strip e))))
            (tokenize (apply_aliases_to_expression ctx (py_strip e))) 0 policies ctx with
        | some r =>
          obtain ⟨p, e1, q⟩ := r
          exact ⟨_, rfl⟩
        | none => exact ⟨_, rfl⟩

/-- Witness for C4 amended: a concrete one-step chain. -/
theorem c4_evaluate_total_witness :
    ∃ r, parse_and_evaluate 1 (mk_ctx [] []) "MIT" [⟨"MIT", "allow"⟩] = some r :=
  c4_evaluate_total_on_terminating_chains 1 (mk_ctx [] []) [⟨"MIT", "allow"⟩]
    "MIT" (by decide)

/-- One-step unfolding of `parse_and_expression` at successor fuel, given
the two sub-results. -/
theorem parse_and_expression_step (f : Nat) (tokens : List Token) (pos : Nat)
    (policies : List Policy) (ctx : Ctx) (lp le : String) (pos1 : Nat)
    (more : List (String × String)) (pos2 : Nat)
    (hleft : parse_with_expression f tokens pos policies ctx = some (lp, le, pos1))
    (hloop : and_loop f tokens pos1 policies ctx = some (more, pos2)) :
    parse_and_expression (f + 1) tokens pos policies ctx =
      (if ((lp, le) :: more).length = 1 then some (lp, le, pos2)
       else
        let ps := ((lp, le) :: more).map Prod.fst
        let es := String.intercalate "; " (((lp, le) :: more).map Prod.snd)
        if ps.all (fun p => p == "allow") then
          some ("allow", "AND: all allowed (" ++ es ++ ")", pos2)
        else if ps.any (fun p => p == "deny") then
          some ("deny", "AND: at least one denied (" ++ es ++ ")", pos2)
        else
          some ("needs-review", "AND: some need review (" ++ es ++ ")", pos2)) := by
  have h0 : parse_and_expression (f + 1) tokens pos policies ctx =
      match parse_with_expression f tokens pos policies ctx with
      | none => none
      | some (left_policy, left_expl, q1) =>
        match and_loop f tokens q1 policies ctx with
        | none => none
        | some (more2, q2) =>
          let results := (left_policy, left_expl) :: more2
          if results.length = 1 then some (left_policy, left_expl, q2)
          else
            let ps := results.map Prod.fst
            let es := String.intercalate "; " (results.map Prod.snd)
            if ps.all (fun p => p == "allow") then
              some ("allow", "AND: all allowed (" ++ es ++ ")", q2)
            else if ps.any (fun p => p == "deny") then
              some ("deny", "AND: at least one denied (" ++ es ++ ")", q2)
            else
              some ("needs-review", "AND: some need review (" ++ es ++ ")", q2) := rfl
  rw [h0]
  simp only [hleft, hloop]

/-- One-step unfolding of `parse_or_expression` at successor fuel, given the
two sub-results. -/
theorem parse_or_expression_step (f : Nat) (tokens : List Token) (pos : Nat)
    (policies : List Policy) (ctx : Ctx) (lp le : String) (pos1 : Nat)
    (more : List (String × String)) (pos2 : Nat)
    (hleft : parse_and_expression f tokens pos policies ctx = some (lp, le, pos1))
    (hloop : or_loop f tokens pos1 policies ctx = some (more, pos2)) :
    parse_or_expression (f + 1) tokens pos policies ctx =
      (if ((lp, le) :: more).length = 1 then some (lp, le, pos2)
       else
        let ps := ((lp, le) :: more).map Prod.fst
        let es := String.intercalate "; " (((lp, le) :: more).map Prod.snd)
        if ps.any (fun p => p == "allow") then
          some ("allow", "OR: at least one allowed (" ++ es ++ ")", pos2)
        else if ps.all (fun p => p == "deny") then
          some ("deny", "OR: all denied (" ++ es ++ ")", pos2)
        else
          some ("needs-review", "OR: none allowed (" ++ es ++ ")", pos2)) := by
  have h0 : parse_or_expression (f + 1) tokens pos policies ctx =
      match parse_and_expression f tokens pos policies ctx with
      | none => none
      | some (left_policy, left_expl, q1) =>
        match or_loop f tokens q1 policies ctx with
        | none => none
        | some (more2, q2) =>
          let results := (left_policy, left_expl) :: more2
          if results.length = 1 then some (left_policy, left_expl, q2)
          else
            let ps := results.map Prod.fst
            let es := String.intercalate "; " (results.map Prod.snd)
            if ps.any (fun p => p == "allow") then
              some ("allow", "OR: at least one allowed (" ++ es ++ ")", q2)
            else if ps.all (fun p => p == "deny") then
              some ("deny", "OR: all denied (" ++ es ++ ")", q2)
            else
              some ("needs-review", "OR: none allowed (" ++ es ++ ")", q2) := rfl
  rw [h0]
  simp only [hleft, hloop]

/-- C2: for an AND expression of two or more operands — the first operand's
evaluation `(lp, le)` and at least one further operand collected by the AND
loop — the evaluated policy is allow exactly when every operand evaluated to
allow, deny whenever some operand evaluated to deny, and needs-review
otherwise. -/
theorem c2_and_aggregation (fuel : Nat) (tokens : List Token) (pos : Nat)
    (policies : List Policy) (ctx : Ctx) (lp le : String) (pos1 : Nat)
    (more : List (String × String)) (pos2 : Nat)
    (hleft : parse_with_expression fuel tokens pos policies ctx = some (lp, le, pos1))
    (hloop : and_loop fuel tokens pos1 policies ctx = some (more, pos2))
    (htwo : more ≠ []) :
    ((parse_and_expression (fuel + 1) tokens pos policies ctx).map
        (fun r => r.1) = some "allow" ↔
      ∀ q ∈ lp :: more.map Prod.fst, q = "allow") ∧
    ((∃ q ∈ lp :: more.map Prod.fst, q = "deny") →
      (parse_and_expression (fuel + 1) tokens pos policies ctx).map
        (fun r => r.1) = some "deny") ∧
    ((¬ ∀ q ∈ lp :: more.map Prod.fst, q = "allow") →
      (¬ ∃ q ∈ lp :: more.map Prod.fst, q = "deny") →
      (parse_and_expression (fuel + 1) tokens pos policies ctx).map
        (fun r => r.1) = some "needs-review") := by
  have hlen : ¬ (((lp, le) :: more).length = 1) := by
    simp only [List.length_cons]
    intro hc
    have h0 : more.length = 0 := by omega
    exact htwo (List.length_eq_zero.mp h0)
  rw [parse_and_expression_step fuel tokens pos policies ctx lp le pos1 more pos2
    hleft hloop]
  simp only [if_neg hlen, List.map_cons]
  by_cases hA : ((lp :: more.map Prod.fst).all (fun p => p == "allow")) = true
  · have hA2 : ∀ q ∈ lp :: more.map Prod.fst, q = "allow" := by
      intro q hq
      exact beq_iff_eq.mp (List.all_eq_true.mp hA q hq)
    rw [if_pos hA]
    refine ⟨iff_of_true (by simp) hA2, ?_, ?_⟩
    · rintro ⟨q, hq, hdq⟩
      exact absurd (hA2 q hq) (by rw [hdq]; decide)
    · intro hna
      exact absurd hA2 hna
  · have hA2 : ¬ ∀ q ∈ lp :: more.map Prod.fst, q = "allow" := by
      intro hc
      exact hA (List.all_eq_true.mpr (fun q hq => beq_iff_eq.mpr (hc q hq)))
    rw [if_neg hA]
    by_cases hD : ((lp :: more.map Prod.fst).any (fun p => p == "deny")) = true
    · rw [if_pos hD]
      refine ⟨iff_of_false (by simp) hA2, fun _ => by simp, ?_⟩
      intro _ hnd
      obtain ⟨q, hq, hdq⟩ := List.any_eq_true.mp hD
      exact absurd ⟨q, hq, beq_iff_eq.mp hdq⟩ hnd
    · have hD2 : ¬ ∃ q ∈ lp :: more.map Prod.fst, q = "deny" := by
        rintro ⟨q, hq, hdq⟩
        exact hD (List.any_eq_true.mpr ⟨q, hq, beq_iff_eq.mpr hdq⟩)
      rw [if_neg hD]
      exact ⟨iff_of_false (by simp) hA2, fun hc => absurd hc hD2, fun _ _ => by simp⟩

/-- Witness for C2: `MIT AND GPL-3.0` with MIT allowed and GPL-3.0 denied
evaluates to deny; the two collected operands are allow and deny. -/
theorem c2_and_aggregation_witness :
    (parse_and_expression 11 (tokenize "MIT AND GPL-3.0") 0
        [⟨"MIT", "allow"⟩, ⟨"GPL-3.0", "deny"⟩] (mk_ctx [] [])).map
      (fun r => r.1) = some "deny" := by
  have h := c2_and_aggregation 10 (tokenize "MIT AND GPL-3.0") 0
    [⟨"MIT", "allow"⟩, ⟨"GPL-3.0", "deny"⟩] (mk_ctx [] [])
    "allow" (quote_str ++ "MIT" ++ quote_str) 1
    [("deny", quote_str ++ "GPL-3.0" ++ quote_str)] 3
    (by decide) (by decide) (by decide)
  exact h.2.1 ⟨"deny", by decide, rfl⟩

/-- C3: for an OR expression of two or more operands — the first operand's
evaluation `(lp, le)` and at least one further operand collected by the OR
loop — the evaluated policy is allow exactly when some operand evaluated to
allow, deny whenever every operand evaluated to deny, and needs-review
otherwise. -/
theorem c3_or_aggregation (fuel : Nat) (tokens : List Token) (pos : Nat)
    (policies : List Policy) (ctx : Ctx) (lp le : String) (pos1 : Nat)
    (more : List (String × String)) (pos2 : Nat)
    (hleft : parse_and_expression fuel tokens pos policies ctx = some (lp, le, pos1))
    (hloop : or_loop fuel tokens pos1 policies ctx = some (more, pos2))
    (htwo : more ≠ []) :
    ((parse_or_expression (fuel + 1) tokens pos policies ctx).map
        (fun r => r.1) = some "allow" ↔
      ∃ q ∈ lp :: more.map Prod.fst, q = "allow") ∧
    ((∀ q ∈ lp :: more.map Prod.fst, q = "deny") →
      (parse_or_expression (fuel + 1) tokens pos policies ctx).map
        (fun r => r.1) = some "deny") ∧
    ((¬ ∃ q ∈ lp :: more.map Prod.fst, q = "allow") →
      (¬ ∀ q ∈ lp :: more.map Prod.fst, q = "deny") →
      (parse_or_expression (fuel + 1) tokens pos policies ctx).map
        (fun r => r.1) = some "needs-review") := by
  have hlen : ¬ (((lp, le) :: more).length = 1) := by
    simp only [List.length_cons]
    intro hc
    have h0 : more.length = 0 := by omega
    exact htwo (List.length_eq_zero.mp h0)
  rw [parse_or_expression_step fuel tokens pos policies ctx lp le pos1 more pos2
    hleft hloop]
  simp only [if_neg hlen, List.map_cons]
  by_cases hA : ((lp :: more.map Prod.fst).any (fun p => p == "allow")) = true
  · have hA2 : ∃ q ∈ lp :: more.map Prod.fst, q = "allow" := by
      obtain ⟨q, hq, hqa⟩ := List.any_eq_true.mp hA
      exact ⟨q, hq, beq_iff_eq.mp hqa⟩
    rw [if_pos hA]
    refine ⟨iff_of_true (by simp) hA2, ?_, ?_⟩
    · intro hall
      obtain ⟨q, hq, hqa⟩ := hA2
      exact absurd (hall q hq) (by rw [hqa]; decide)
    · intro hna
      exact absurd hA2 hna
  · have hA2 : ¬ ∃ q ∈ lp :: more.map Prod.fst, q = "allow" := by
      rintro ⟨q, hq, hqa⟩
      exact hA (List.any_eq_true.mpr ⟨q, hq, beq_iff_eq.mpr hqa⟩)
    rw [if_neg hA]
    by_cases hD : ((lp :: more.map Prod.fst).all (fun p => p == "deny")) = true
    · rw [if_pos hD]
      refine ⟨iff_of_false (by simp) hA2, fun _ => by simp, ?_⟩
      intro _ hnd
      exact absurd (fun q hq => beq_iff_eq.mp (List.all_eq_true.mp hD q hq)) hnd
    · have hD2 : ¬ ∀ q ∈ lp :: more.map Prod.fst, q = "deny" := by
        intro hc
        exact hD (List.all_eq_true.mpr (fun q hq => beq_iff_eq.mpr (hc q hq)))
      rw [if_neg hD]
      exact ⟨iff_of_false (by simp) hA2, fun hc => absurd hc hD2, fun _ _ => by simp⟩

/-- The AND loop stops without consuming anything at a non-AND token. -/
theorem and_loop_stop (f : Nat) (tokens : List Token) (pos : Nat)
    (policies : List Policy) (ctx : Ctx) (tk : Token)
    (htk : tokens[pos]? = some tk) (hA : tk.type ≠ .AND) :
    and_loop (f + 1) tokens pos policies ctx = some ([], pos) := by
  simp only [and_loop, htk, if_neg hA]

/-- The OR loop stops without consuming anything at a non-OR token. -/
theorem or_loop_stop (f : Nat) (tokens : List Token) (pos : Nat)
    (policies : List Policy) (ctx : Ctx) (tk : Token)
    (htk : tokens[pos]? = some tk) (hO : tk.type ≠ .OR) :
    or_loop (f + 1) tokens pos policies ctx = some ([], pos) := by
  simp only [or_loop, htk, if_neg hO]

/-- A WITH-expression is just its simple expression when the next token is
not WITH. -/
theorem parse_with_expression_pass (f : Nat) (tokens : List Token) (pos : Nat)
    (policies : List Policy) (ctx : Ctx) (bp be : String) (p1 : Nat) (tk : Token)
    (hsimple : parse_simple_expression f tokens pos policies ctx = some (bp, be, p1))
    (htk : tokens[p1]? = some tk) (hW : tk.type ≠ .WITH) :
    parse_with_expression (f + 1) tokens pos policies ctx = some (bp, be, p1) := by
  simp only [parse_with_expression, hsimple, htk, if_neg hW]

/-- An AND-expression with a single operand passes the operand through. -/
theorem parse_and_expression_pass (f : Nat) (tokens : List Token) (pos : Nat)
    (policies : List Policy) (ctx : Ctx) (lp le : String) (p1 : Nat)
    (hleft : parse_with_expression f tokens pos policies ctx = some (lp, le, p1))
    (hloop : and_loop f tokens p1 policies ctx = some ([], p1)) :
    parse_and_expression (f + 1) tokens pos policies ctx = some (lp, le, p1) := by
  rw [parse_and_expression_step f tokens pos policies ctx lp le p1 [] p1
    hleft hloop]
  simp

/-- An OR-expression with a single operand passes the operand through. -/
theorem parse_or_expression_pass (f : Nat) (tokens : List Token) (pos : Nat)
    (policies : List Policy) (ctx : Ctx) (lp le : String) (p1 : Nat)
    (hleft : parse_and_expression f tokens pos policies ctx = some (lp, le, p1))
    (hloop : or_loop f tokens p1 policies ctx = some ([], p1)) :
    parse_or_expression (f + 1) tokens pos policies ctx = some (lp, le, p1) := by
  rw [parse_or_expression_step f tokens pos policies ctx lp le p1 [] p1
    hleft hloop]
  simp

/-- The simple-expression result on a license-id token followed by any token
that is not PLUS: the policy lookup happens with the or-later flag unset and
the token after the id stays unconsumed. -/
theorem parse_simple_single_id (f : Nat) (v : String) (vpos : Nat) (t : Token)
    (rest : List Token) (policies : List Policy) (ctx : Ctx)
    (hP : t.type ≠ .PLUS) :
    parse_simple_expression (f + 1) (⟨.LICENSE_ID, v, vpos⟩ :: t :: rest) 0
        policies ctx =
      (if py_truthy (find_license_policy ctx v policies false) then
        some ((find_license_policy ctx v policies false).getD "",
          quote_str ++ (v ++ "") ++ quote_str, 1)
       else
        some ("needs-review",
          quote_str ++ (v ++ "") ++ quote_str ++ " (no policy)", 1)) := by
  rw [parse_simple_expression]
  simp only [List.getElem?_cons_zero, List.getElem?_cons_succ, if_neg hP]
  rfl

theorem py_truthy_some (o : Option String) (h : py_truthy o = true) :
    ∃ s, o = some s ∧ o.getD "" = s := by
  cases o with
  | none => simp [py_truthy] at h
  | some s => exact ⟨s, rfl, rfl⟩

theorem allow_mem : ("allow" : String) ∈ usage_policies := by decide

theorem deny_mem : ("deny" : String) ∈ usage_policies := by decide

theorem nr_mem : ("needs-review" : String) ∈ usage_policies := by decide

/-- Every result of the grammar functions carries a policy from the table or
one of the three literals: with a well-formed table, every returned policy
is one of allow / deny / needs-review (joint induction over the fuel). -/
theorem parse_policies_in_range (fuel : Nat) :
    ∀ (tokens : List Token) (pos : Nat) (policies : List Policy) (ctx : Ctx),
      wf_policies policies →
      (∀ r, parse_simple_expression fuel tokens pos policies ctx = some r →
        r.1 ∈ usage_policies) ∧
      (∀ r, parse_with_expression fuel tokens pos policies ctx = some r →
        r.1 ∈ usage_policies) ∧
      (∀ r, and_loop fuel tokens pos policies ctx = some r →
        ∀ q ∈ r.1, q.1 ∈ usage_policies) ∧
      (∀ r, parse_and_expression fuel tokens pos policies ctx = some r →
        r.1 ∈ usage_policies) ∧
      (∀ r, or_loop fuel tokens pos policies ctx = some r →
        ∀ q ∈ r.1, q.1 ∈ usage_policies) ∧
      (∀ r, parse_or_expression fuel tokens pos policies ctx = some r →
        r.1 ∈ usage_policies) := by
  induction fuel with
  | zero =>
    intro tokens pos policies ctx hwf
    refine ⟨?_, ?_, ?_, ?_, ?_, ?_⟩ <;> intro r h <;>
      simp [parse_simple_expression, parse_with_expression, and_loop,
        parse_and_expression, or_loop, parse_or_expression] at h
  | succ f ih =>
    intro tokens pos policies ctx hwf
    have simple_range : ∀ pos r,
        parse_simple_expression (f + 1) tokens pos policies ctx = some r →
          r.1 ∈ usage_policies := by
      intro pos r h
      rw [parse_simple_expression] at h
      cases htok : tokens[pos]? with
      | none =>
        simp only [htok] at h
        cases h
        exact nr_mem
      | some token =>
        simp only [htok] at h
        split at h
        · cases h; exact nr_mem
        · split at h
          · -- LPAREN
            cases hrec : parse_or_expression f tokens (pos + 1) policies ctx with
            | none => rw [hrec] at h; simp at h
            | some rr =>
              obtain ⟨p1, e1, q1⟩ := rr
              rw [hrec] at h
              simp only at h
              cases h
              exact (ih tokens (pos + 1) policies ctx hwf).2.2.2.2.2
                (p1, e1, q1) hrec
          · split at h
            · -- LICENSE_REF
              split at h
              · rename_i hpol
                obtain ⟨s, hs, hgd⟩ := py_truthy_some _ hpol
                cases h
                simp only [hgd]
                obtain ⟨p, hp, hps⟩ := find_license_policy_mem _ _ _ _ _ hs
                exact hps ▸ hwf p hp
              · cases h; exact nr_mem
            · split at h
              · -- LICENSE_ID
                split at h
                · rename_i hpol
                  obtain ⟨s, hs, hgd⟩ := py_truthy_some _ hpol
                  cases h
                  simp only [hgd]
                  obtain ⟨p, hp, hps⟩ := find_license_policy_mem _ _ _ _ _ hs
                  exact hps ▸ hwf p hp
                · cases h; exact nr_mem
              · cases h; exact nr_mem
    have with_range : ∀ pos r,
        parse_with_expression (f + 1) tokens pos policies ctx = some r →
          r.1 ∈ usage_policies := by
      intro pos r h
      rw [parse_with_expression] at h
      cases hsimp : parse_simple_expression f tokens pos policies ctx with
      | none => rw [hsimp] at h; simp at h
      | some rr =>
        obtain ⟨bp, be, p1⟩ := rr
        have hbp : bp ∈ usage_policies :=
          (ih tokens pos policies ctx hwf).1 (bp, be, p1) hsimp
        simp only [hsimp] at h
        cases htok : tokens[p1]? with
        | none => simp only [htok] at h; cases h; exact hbp
        | some t =>
          simp only [htok] at h
          split at h
          · cases htok2 : tokens[p1 + 1]? with
            | none => simp only [htok2] at h; cases h; exact hbp
            | some t2 =>
              simp only [htok2] at h
              split at h
              · by_cases hbq : str_has_char quote_char be = true
                · simp only [if_pos hbq] at h
                  split at h
                  · rename_i hpol
                    obtain ⟨s, hs, hgd⟩ := py_truthy_some _ hpol
                    cases h
                    simp only [hgd]
                    obtain ⟨p, hp, hps⟩ := find_with_policy_mem _ _ _ _ _ hs
                    exact hps ▸ hwf p hp
                  · split at h
                    · cases h; exact allow_mem
                    · split at h
                      · cases h; exact deny_mem
                      · cases h; exact nr_mem
                · simp only [if_neg hbq] at h
                  split at h
                  · rename_i hpol
                    obtain ⟨s, hs, hgd⟩ := py_truthy_some _ hpol
                    cases h
                    simp only [hgd]
                    obtain ⟨p, hp, hps⟩ := find_with_policy_mem _ _ _ _ _ hs
                    exact hps ▸ hwf p hp
                  · split at h
                    · cases h; exact allow_mem
                    · split at h
                      · cases h; exact deny_mem
                      · cases h; exact nr_mem
              · cases h; exact hbp
          · cases h; exact hbp
    have and_loop_range : ∀ pos r,
        and_loop (f + 1) tokens pos policies ctx = some r →
          ∀ q ∈ r.1, q.1 ∈ usage_policies := by
      intro pos r h
      rw [and_loop] at h
      cases htok : tokens[pos]? with
      | none => simp only [htok] at h; cases h; intro q hq; simp at hq
      | some t =>
        simp only [htok] at h
        split at h
        · cases hw : parse_with_expression f tokens (pos + 1) policies ctx with
          | none => rw [hw] at h; simp at h
          | some rr =>
            obtain ⟨p1, e1, q1⟩ := rr
            rw [hw] at h
            simp only at h
            cases hl : and_loop f tokens q1 policies ctx with
            | none => rw [hl] at h; simp at h
            | some rl =>
              obtain ⟨rs, q2⟩ := rl
              rw [hl] at h
              simp only at h
              cases h
              intro q hq
              rcases List.mem_cons.mp hq with hq | hq
              · rw [hq]
                exact (ih tokens (pos + 1) policies ctx hwf).2.1 (p1, e1, q1) hw
              · exact (ih tokens q1 policies ctx hwf).2.2.1 (rs, q2) hl q hq
        · cases h; intro q hq; simp at hq
    have and_range : ∀ pos r,
        parse_and_expression (f + 1) tokens pos policies ctx = some r →
          r.1 ∈ usage_policies := by
      intro pos r h
      rw [parse_and_expression] at h
      cases hw : parse_with_expression f tokens pos policies ctx with
      | none => rw [hw] at h; simp at h
      | some rr =>
        obtain ⟨lp, le, p1⟩ := rr
        rw [hw] at h
        simp only at h
        cases hl : and_loop f tokens p1 policies ctx with
        | none => rw [hl] at h; simp at h
        | some rl =>
          obtain ⟨more, p2⟩ := rl
          rw [hl] at h
          simp only at h
          split at h
          · cases h
            exact (ih tokens pos policies ctx hwf).2.1 (lp, le, p1) hw
          · split at h
            · cases h; exact allow_mem
            · split at h
              · cases h; exact deny_mem
              · cases h; exact nr_mem
    have or_loop_range : ∀ pos r,
        or_loop (f + 1) tokens pos policies ctx = some r →
          ∀ q ∈ r.1, q.1 ∈ usage_policies := by
      intro pos r h
      rw [or_loop] at h
      cases htok : tokens[pos]? with
      | none => simp only [htok] at h; cases h; intro q hq; simp at hq
      | some t =>
        simp only [htok] at h
        split at h
        · cases hw : parse_and_expression f tokens (pos + 1) policies ctx with
          | none => rw [hw] at h; simp at h
          | some rr =>
            obtain ⟨p1, e1, q1⟩ := rr
            rw [hw] at h
            simp only at h
            cases hl : or_loop f tokens q1 policies ctx with
            | none => rw [hl] at h; simp at h
            | some rl =>
              obtain ⟨rs, q2⟩ := rl
              rw [hl] at h
              simp only at h
              cases h
              intro q hq
              rcases List.mem_cons.mp hq with hq | hq
              · rw [hq]
                exact (ih tokens (pos + 1) policies ctx hwf).2.2.2.1
                  (p1, e1, q1) hw
              · exact (ih tokens q1 policies ctx hwf).2.2.2.2.1 (rs, q2) hl q hq
        · cases h; intro q hq; simp at hq
    have or_range : ∀ pos r,
        parse_or_expression (f + 1) tokens pos policies ctx = some r →
          r.1 ∈ usage_policies := by
      intro pos r h
      rw [parse_or_expression] at h
      cases hw : parse_and_expression f tokens pos policies ctx with
      | none => rw [hw] at h; simp at h
      | some rr =>
        obtain ⟨lp, le, p1⟩ := rr
        rw [hw] at h
        simp only at h
        cases hl : or_loop f tokens p1 policies ctx with
        | none => rw [hl] at h; simp at h
        | some rl =>
          obtain ⟨more, p2⟩ := rl
          rw [hl] at h
          simp only at h
          split at h
          · cases h
            exact (ih tokens pos policies ctx hwf).2.2.2.1 (lp, le, p1) hw
          · split at h
            · cases h; exact allow_mem
            · split at h
              · cases h; exact deny_mem
              · cases h; exact nr_mem
    exact ⟨simple_range pos, with_range pos, and_loop_range pos, and_range pos,
      or_loop_range pos, or_range pos⟩

/-- C6: for every expression string, alias context and well-formed policy
table (every entry's usage policy one of the three values, as the
`PolicyEntry` data model states), whenever the evaluate entry point returns,
the policy component of its result is one of exactly allow / deny /
needs-review. -/
theorem c6_policy_three_valued (fuel : Nat) (ctx : Ctx) (policies : List Policy)
    (hwf : wf_policies policies) :
    ∀ expression p e,
      parse_and_evaluate fuel ctx expression policies = some (p, e) →
        p ∈ usage_policies := by
  induction fuel with
  | zero =>
    intro expression p e h
    simp [parse_and_evaluate] at h
  | succ f ih =>
    intro expression p e h
    rw [parse_and_evaluate] at h
    split at h
    · cases h; exact nr_mem
    · cases hl : alias_lookup ctx.combinedAliases (py_lower (py_strip expression)) with
      | some resolved =>
        simp only [hl] at h
        exact ih resolved p e h
      | none =>
        simp only [hl] at h
        cases hp : parse_expression
            (grammar_fuel (tokenize (apply_aliases_to_expression ctx
              (py_strip expression))))
            (tokenize (apply_aliases_to_expression ctx (py_strip expression)))
            0 policies ctx with
        | none => simp only [hp] at h; cases h; exact nr_mem
        | some rr =>
          obtain ⟨p1, e1, q1⟩ := rr
          simp only [hp] at h
          cases h
          exact (parse_policies_in_range _ _ 0 policies ctx hwf).2.2.2.2.2
            _ hp

/-- Witness for C6 at a concrete table and expression. -/
theorem c6_policy_three_valued_witness :
    parse_and_evaluate 1 (mk_ctx [] []) "MIT" [⟨"MIT", "allow"⟩] =
        some ("allow", quote_str ++ "MIT" ++ quote_str) ∧
      ("allow" : String) ∈ usage_policies :=
  ⟨by decide,
   c6_policy_three_valued 1 (mk_ctx [] []) [⟨"MIT", "allow"⟩]
     (by intro p hp; rw [List.mem_singleton.mp hp]; decide) "MIT"
     "allow" (quote_str ++ "MIT" ++ quote_str) (by decide)⟩

/-- C1 counterexample: a policy table may contain an entry whose id is the
sentinel `NOASSERTION`; evaluating that id returns the sentinel NeedsReview
result instead of the entry's configured allow, so the claim fails as
universally stated. -/
theorem c1_counterexample :
    parse_and_evaluate 1 (mk_ctx [] []) "NOASSERTION"
        [⟨"NOASSERTION", "allow"⟩] =
        some ("needs-review", "No license found") ∧
      ("needs-review" : String) ≠ "allow" :=
  ⟨by decide, by decide⟩

/-- C1 amended: for every alias context, policy table and entry `e` such
that `e.id` is non-empty, none of the sentinel strings, already stripped,
not rewritten by the combined-alias, expression-alias or id-alias tables,
carries no trailing `+`, tokenizes as one single license-id token, is the
id of the first table entry matching it exactly, and `e`'s usage policy is
one of the three policy values, evaluating the expression consisting
exactly of `e.id` returns `e.usagePolicy` (with the quoted id as
explanation). -/
theorem c1_policy_entry_roundtrip (fuel : Nat) (ctx : Ctx)
    (policies : List Policy) (e : Policy)
    (hne : e.id ≠ "")
    (hsent : e.id ∉ no_license_sentinels)
    (htrim : py_strip e.id = e.id)
    (hcomb : alias_lookup ctx.combinedAliases (py_lower e.id) = none)
    (halias : apply_aliases_to_expression ctx e.id = e.id)
    (hplus : py_rstrip '+' e.id = e.id)
    (hnorm : normalize_license_id ctx.licenseAliases e.id = e.id)
    (htok : tokenize e.id =
      [⟨.LICENSE_ID, e.id, 0⟩, ⟨.EOF, "", e.id.length⟩])
    (hfind : policies.find? (fun p => p.id == e.id) = some e)
    (hwf3 : e.usagePolicy ∈ usage_policies) :
    parse_and_evaluate (fuel + 1) ctx e.id policies =
      some (e.usagePolicy, quote_str ++ e.id ++ quote_str) := by
  have hflp : find_license_policy ctx e.id policies false = some e.usagePolicy := by
    simp only [find_license_policy, hplus, hnorm]
    rw [find?_ext policies _ (fun p => p.id == e.id)
      (fun a => Bool.or_self (a.id == e.id)), hfind]
  have hup : e.usagePolicy ≠ "" := by
    simp only [usage_policies, List.mem_cons, List.not_mem_nil, or_false] at hwf3
    rcases hwf3 with h | h | h <;> rw [h] <;> decide
  have htruthy : py_truthy (find_license_policy ctx e.id policies false) = true := by
    rw [hflp]
    exact bne_iff_ne.mpr hup
  have hsimp : parse_simple_expression 9
      [⟨.LICENSE_ID, e.id, 0⟩, ⟨.EOF, "", e.id.length⟩] 0 policies ctx =
      some (e.usagePolicy, quote_str ++ e.id ++ quote_str, 1) := by
    rw [parse_simple_single_id 8 e.id 0 ⟨.EOF, "", e.id.length⟩ []
      policies ctx (by simp), if_pos htruthy, hflp]
    simp
  have h1 : ([⟨.LICENSE_ID, e.id, 0⟩, ⟨.EOF, "", e.id.length⟩] :
      List Token)[1]? = some ⟨.EOF, "", e.id.length⟩ := by simp
  have hwith := parse_with_expression_pass 9 _ 0 policies ctx
    e.usagePolicy (quote_str ++ e.id ++ quote_str) 1 ⟨.EOF, "", e.id.length⟩
    hsimp h1 (by simp)
  have hand := parse_and_expression_pass 10 _ 0 policies ctx
    e.usagePolicy (quote_str ++ e.id ++ quote_str) 1 hwith
    (and_loop_stop 9 _ 1 policies ctx ⟨.EOF, "", e.id.length⟩ h1 (by simp))
  have hor := parse_or_expression_pass 11 _ 0 policies ctx
    e.usagePolicy (quote_str ++ e.id ++ quote_str) 1 hand
    (or_loop_stop 10 _ 1 policies ctx ⟨.EOF, "", e.id.length⟩ h1 (by simp))
  have hcond : ¬ ((e.id == "" || no_license_sentinels.contains e.id) = true) := by
    intro hc
    rcases Bool.or_eq_true_iff.mp hc with hc | hc
    · exact hne (beq_iff_eq.mp hc)
    · exact hsent (List.mem_of_elem_eq_true hc)
  have hpe : parse_expression 12
      [⟨.LICENSE_ID, e.id, 0⟩, ⟨.EOF, "", e.id.length⟩] 0 policies ctx =
      some (e.usagePolicy, quote_str ++ e.id ++ quote_str, 1) := hor
  rw [parse_and_evaluate, if_neg hcond]
  simp only [htrim, hcomb, halias, htok]
  rw [show grammar_fuel [(⟨.LICENSE_ID, e.id, 0⟩ : Token),
    ⟨.EOF, "", e.id.length⟩] = 12 by rfl]
  simp only [hpe]

/-- Witness for C1 amended: the entry `MIT → allow` with an empty alias
context. -/
theorem c1_policy_entry_roundtrip_witness :
    parse_and_evaluate 1 (mk_ctx [] []) "MIT" [⟨"MIT", "allow"⟩] =
      some ("allow", quote_str ++ "MIT" ++ quote_str) :=
  c1_policy_entry_roundtrip 0 (mk_ctx [] []) [⟨"MIT", "allow"⟩] ⟨"MIT", "allow"⟩
    (by decide) (by decide) (by decide) (by decide) (by decide) (by decide)
    (by decide) (by decide) (by decide) (by decide)

theorem seg_at_cons (tokens : List Token) (pos : Nat) (x : Token)
    (l : List Token) (h : seg_at tokens pos (x :: l)) :
    tokens[pos]? = some x ∧ seg_at tokens (pos + 1) l := by
  constructor
  · have h0 := h 0 (by simp)
    simpa using h0
  · intro i hi
    have hs := h (i + 1) (by simp only [List.length_cons]; omega)
    rw [show pos + (i + 1) = pos + 1 + i by omega] at hs
    simpa using hs

theorem seg_at_append_left (tokens : List Token) (pos : Nat)
    (l₁ l₂ : List Token) (h : seg_at tokens pos (l₁ ++ l₂)) :
    seg_at tokens pos l₁ := by
  intro i hi
  have hs := h i (by simp only [List.length_append]; omega)
  rw [List.getElem?_append_left hi] at hs
  exact hs

theorem seg_at_append_right (tokens : List Token) (pos : Nat)
    (l₁ l₂ : List Token) (h : seg_at tokens pos (l₁ ++ l₂)) :
    seg_at tokens (pos + l₁.length) l₂ := by
  intro i hi
  have hs := h (l₁.length + i) (by simp only [List.length_append]; omega)
  rw [show pos + (l₁.length + i) = pos + l₁.length + i by omega] at hs
  rw [List.getElem?_append_right (by omega)] at hs
  rw [hs]
  congr 1
  omega

theorem seg_at_prefix (ts rest : List Token) : seg_at (ts ++ rest) 0 ts := by
  intro i hi
  rw [Nat.zero_add, List.getElem?_append_left hi]

theorem not_after_of_ne (t : Token) (ty : TokenType) (h : t.type ≠ ty) :
    not_after (some t) ty := by
  intro u hu
  cases hu
  exact h

theorem not_after_none (ty : TokenType) : not_after none ty := by
  intro u hu
  cases hu

theorem bnd_or_of_types (t : Token) (h1 : t.type ≠ .PLUS) (h2 : t.type ≠ .WITH)
    (h3 : t.type ≠ .AND) (h4 : t.type ≠ .OR) : bnd_or (some t) :=
  ⟨⟨⟨not_after_of_ne t _ h1, not_after_of_ne t _ h2⟩, not_after_of_ne t _ h3⟩,
    not_after_of_ne t _ h4⟩

/-! ## Pointwise unfolding lemmas for the parser -/

theorem parse_simple_id_noplus (f : Nat) (tokens : List Token) (pos : Nat)
    (policies : List Policy) (ctx : Ctx) (v : String) (vp : Nat)
    (htok : tokens[pos]? = some ⟨.LICENSE_ID, v, vp⟩)
    (hnp : not_after tokens[pos + 1]? .PLUS) :
    parse_simple_expression (f + 1) tokens pos policies ctx =
      (if py_truthy (find_license_policy ctx v policies false) then
        some ((find_license_policy ctx v policies false).getD "",
          quote_str ++ v ++ quote_str, pos + 1)
       else
        some ("needs-review",
          quote_str ++ v ++ quote_str ++ " (no policy)", pos + 1)) := by
  rw [parse_simple_expression]
  simp only [htok]
  cases hn : tokens[pos + 1]? with
  | none => simp
  | some t =>
    have ht := hnp t hn
    simp [hn, ht]

theorem parse_simple_id_plus (f : Nat) (tokens : List Token) (pos : Nat)
    (policies : List Policy) (ctx : Ctx) (v : String) (vp : Nat)
    (w : String) (wq : Nat)
    (htok : tokens[pos]? = some ⟨.LICENSE_ID, v, vp⟩)
    (hplus : tokens[pos + 1]? = some ⟨.PLUS, w, wq⟩) :
    parse_simple_expression (f + 1) tokens pos policies ctx =
      (if py_truthy (find_license_policy ctx v policies true) then
        some ((find_license_policy ctx v policies true).getD "",
          quote_str ++ (v ++ "+") ++ quote_str, pos + 2)
       else
        some ("needs-review",
          quote_str ++ (v ++ "+") ++ quote_str ++ " (no policy)", pos + 2)) := by
  rw [parse_simple_expression]
  simp only [htok]
  simp [hplus]

theorem parse_simple_ref_step (f : Nat) (tokens : List Token) (pos : Nat)
    (policies : List Policy) (ctx : Ctx) (v : String) (vp : Nat)
    (htok : tokens[pos]? = some ⟨.LICENSE_REF, v, vp⟩) :
    parse_simple_expression (f + 1) tokens pos policies ctx =
      (if py_truthy (find_license_policy ctx v policies false) then
        some ((find_license_policy ctx v policies false).getD "",
          quote_str ++ v ++ quote_str, pos + 1)
       else
        some ("needs-review",
          quote_str ++ v ++ quote_str ++ " (custom license reference)", pos + 1)) := by
  rw [parse_simple_expression]
  simp [htok]

theorem parse_simple_lparen_step (f : Nat) (tokens : List Token) (pos : Nat)
    (policies : List Policy) (ctx : Ctx) (l : String) (lp : Nat)
    (p e : String) (j : Nat) (r : String) (rp : Nat)
    (htok : tokens[pos]? = some ⟨.LPAREN, l, lp⟩)
    (hrec : parse_or_expression f tokens (pos + 1) policies ctx = some (p, e, j))
    (hrp : tokens[j]? = some ⟨.RPAREN, r, rp⟩) :
    parse_simple_expression (f + 1) tokens pos policies ctx =
      some (p, "(" ++ e ++ ")", j + 1) := by
  rw [parse_simple_expression]
  simp [htok, hrec, hrp]

theorem parse_with_exc_step (f : Nat) (tokens : List Token) (pos : Nat)
    (policies : List Policy) (ctx : Ctx) (bp be : String) (p1 : Nat)
    (w : String) (wp : Nat) (t2 : Token)
    (hsimple : parse_simple_expression f tokens pos policies ctx =
      some (bp, be, p1))
    (hw : tokens[p1]? = some ⟨.WITH, w, wp⟩)
    (hexc : tokens[p1 + 1]? = some t2)
    (hty : t2.type = .LICENSE_ID ∨ t2.type = .ADDITION_REF) :
    parse_with_expression (f + 1) tokens pos policies ctx =
      some (with_clause_policy ctx policies bp (with_base_id be) t2.value,
        with_clause_expl ctx policies bp (with_base_id be) t2.value,
        p1 + 2) := by
  rw [parse_with_expression]
  simp only [hsimple, hw, hexc]
  simp only [show (⟨.WITH, w, wp⟩ : Token).type = .WITH from rfl, if_pos rfl,
    if_pos hty]
  by_cases hq : str_has_char quote_char be = true
  · simp only [if_pos hq, with_base_id, with_clause_policy, with_clause_expl]
    by_cases h1 : py_truthy (find_with_policy ctx
        (py_split_head quote_char (py_strip_char quote_char be)) t2.value
        policies) = true
    · simp [h1]
    · by_cases h2 : (bp == "allow") = true
      · simp [h1, h2]
      · by_cases h3 : (bp == "deny") = true
        · simp [h1, h2, h3]
        · simp [h1, h2, h3]
  · simp only [if_neg hq, with_base_id, with_clause_policy, with_clause_expl]
    by_cases h1 : py_truthy (find_with_policy ctx be t2.value policies) = true
    · simp [h1]
    · by_cases h2 : (bp == "allow") = true
      · simp [h1, h2]
      · by_cases h3 : (bp == "deny") = true
        · simp [h1, h2, h3]
        · simp [h1, h2, h3]

theorem parse_with_pass_none (f : Nat) (tokens : List Token) (pos : Nat)
    (policies : List Policy) (ctx : Ctx) (bp be : String) (p1 : Nat)
    (hsimple : parse_simple_expression f tokens pos policies ctx =
      some (bp, be, p1))
    (htk : tokens[p1]? = none) :
    parse_with_expression (f + 1) tokens pos policies ctx = some (bp, be, p1) := by
  rw [parse_with_expression]
  simp only [hsimple, htk]

theorem and_loop_stop_none (f : Nat) (tokens : List Token) (pos : Nat)
    (policies : List Policy) (ctx : Ctx) (htk : tokens[pos]? = none) :
    and_loop (f + 1) tokens pos policies ctx = some ([], pos) := by
  rw [and_loop]
  simp only [htk]

theorem or_loop_stop_none (f : Nat) (tokens : List Token) (pos : Nat)
    (policies : List Policy) (ctx : Ctx) (htk : tokens[pos]? = none) :
    or_loop (f + 1) tokens pos policies ctx = some ([], pos) := by
  rw [or_loop]
  simp only [htk]

theorem and_loop_iter (f : Nat) (tokens : List Token) (pos : Nat)
    (policies : List Policy) (ctx : Ctx) (tk : Token) (p e : String)
    (j : Nat) (rs : List (String × String)) (k : Nat)
    (htk : tokens[pos]? = some tk) (hA : tk.type = .AND)
    (hw : parse_with_expression f tokens (pos + 1) policies ctx = some (p, e, j))
    (hl : and_loop f tokens j policies ctx = some (rs, k)) :
    and_loop (f + 1) tokens pos policies ctx = some ((p, e) :: rs, k) := by
  rw [and_loop]
  simp only [htk, if_pos hA, hw, hl]

theorem or_loop_iter (f : Nat) (tokens : List Token) (pos : Nat)
    (policies : List Policy) (ctx : Ctx) (tk : Token) (p e : String)
    (j : Nat) (rs : List (String × String)) (k : Nat)
    (htk : tokens[pos]? = some tk) (hO : tk.type = .OR)
    (hw : parse_and_expression f tokens (pos + 1) policies ctx = some (p, e, j))
    (hl : or_loop f tokens j policies ctx = some (rs, k)) :
    or_loop (f + 1) tokens pos policies ctx = some ((p, e) :: rs, k) := by
  rw [or_loop]
  simp only [htk, if_pos hO, hw, hl]

/-- Witness for C3: `GPL-3.0 OR MIT` with GPL-3.0 denied and MIT allowed
evaluates to allow; the two collected operands are deny and allow. -/
theorem c3_or_aggregation_witness :
    (parse_or_expression 11 (tokenize "GPL-3.0 OR MIT") 0
        [⟨"MIT", "allow"⟩, ⟨"GPL-3.0", "deny"⟩] (mk_ctx [] [])).map
      (fun r => r.1) = some "allow" := by
  have h := c3_or_aggregation 10 (tokenize "GPL-3.0 OR MIT") 0
    [⟨"MIT", "allow"⟩, ⟨"GPL-3.0", "deny"⟩] (mk_ctx [] [])
    "deny" (quote_str ++ "GPL-3.0" ++ quote_str) 1
    [("allow", quote_str ++ "MIT" ++ quote_str)] 3
    (by decide) (by decide) (by decide)
  exact h.1.mpr ⟨"allow", by decide, rfl⟩

/-! ## Stability of complete expressions under the following stream -/

theorem simple_nonempty (ts : List Token) (h : SimpleExpr ts) : ts ≠ [] := by
  cases h <;> simp

theorem with_nonempty : ∀ ts, WithExpr ts → ts ≠ []
  | _, .base ts hs => simple_nonempty ts hs
  | _, .withExc ts w wp t2 hs hty => by simp

theorem and_nonempty : ∀ ts, AndExpr ts → ts ≠ []
  | _, .mk ts2 tail hw ht => fun hc =>
    with_nonempty ts2 hw (List.append_eq_nil.mp hc).1

theorem and_tail_shape : ∀ tail, AndTail tail →
    tail = [] ∨ ∃ u tail2, tail = u :: tail2 ∧ u.type = .AND
  | _, .nil => Or.inl rfl
  | _, .cons a ap ts tl hw ht => Or.inr ⟨⟨.AND, a, ap⟩, ts ++ tl, rfl, rfl⟩

theorem or_tail_shape : ∀ tail, OrTail tail →
    tail = [] ∨ ∃ u tail2, tail = u :: tail2 ∧ u.type = .OR
  | _, .nil => Or.inl rfl
  | _, .cons o op ts tl ha ht => Or.inr ⟨⟨.OR, o, op⟩, ts ++ tl, rfl, rfl⟩

theorem simple_parses_id (v : String) (vp : Nat) (policies : List Policy)
    (ctx : Ctx) :
    ∃ P E, simple_parses [⟨.LICENSE_ID, v, vp⟩] policies ctx P E := by
  refine ⟨if py_truthy (find_license_policy ctx v policies false) then
      (find_license_policy ctx v policies false).getD "" else "needs-review",
    if py_truthy (find_license_policy ctx v policies false) then
      quote_str ++ v ++ quote_str
    else quote_str ++ v ++ quote_str ++ " (no policy)", ?_⟩
  intro tokens pos fuel hseg hbnd hfuel
  obtain ⟨f, rfl⟩ : ∃ f, fuel = f + 1 := ⟨fuel - 1, by omega⟩
  have htok : tokens[pos]? = some ⟨.LICENSE_ID, v, vp⟩ :=
    (seg_at_cons tokens pos _ _ hseg).1
  have hnp : not_after tokens[pos + 1]? TokenType.PLUS := hbnd
  rw [parse_simple_id_noplus f tokens pos policies ctx v vp htok hnp]
  by_cases h : py_truthy (find_license_policy ctx v policies false) = true
  · simp [h]
  · simp [h]

theorem simple_parses_idPlus (v : String) (vp : Nat) (w : String) (wq : Nat)
    (policies : List Policy) (ctx : Ctx) :
    ∃ P E, simple_parses [⟨.LICENSE_ID, v, vp⟩, ⟨.PLUS, w, wq⟩]
      policies ctx P E := by
  refine ⟨if py_truthy (find_license_policy ctx v policies true) then
      (find_license_policy ctx v policies true).getD "" else "needs-review",
    if py_truthy (find_license_policy ctx v policies true) then
      quote_str ++ (v ++ "+") ++ quote_str
    else quote_str ++ (v ++ "+") ++ quote_str ++ " (no policy)", ?_⟩
  intro tokens pos fuel hseg hbnd hfuel
  obtain ⟨f, rfl⟩ : ∃ f, fuel = f + 1 := ⟨fuel - 1, by omega⟩
  obtain ⟨htok, hseg2⟩ := seg_at_cons tokens pos _ _ hseg
  obtain ⟨hplus, _⟩ := seg_at_cons tokens (pos + 1) _ _ hseg2
  rw [parse_simple_id_plus f tokens pos policies ctx v vp w wq htok hplus]
  by_cases h : py_truthy (find_license_policy ctx v policies true) = true
  · simp [h]
  · simp [h]

theorem simple_parses_ref (v : String) (vp : Nat) (policies : List Policy)
    (ctx : Ctx) :
    ∃ P E, simple_parses [⟨.LICENSE_REF, v, vp⟩] policies ctx P E := by
  refine ⟨if py_truthy (find_license_policy ctx v policies false) then
      (find_license_policy ctx v policies false).getD "" else "needs-review",
    if py_truthy (find_license_policy ctx v policies false) then
      quote_str ++ v ++ quote_str
    else quote_str ++ v ++ quote_str ++ " (custom license reference)", ?_⟩
  intro tokens pos fuel hseg hbnd hfuel
  obtain ⟨f, rfl⟩ : ∃ f, fuel = f + 1 := ⟨fuel - 1, by omega⟩
  have htok : tokens[pos]? = some ⟨.LICENSE_REF, v, vp⟩ :=
    (seg_at_cons tokens pos _ _ hseg).1
  rw [parse_simple_ref_step f tokens pos policies ctx v vp htok]
  by_cases h : py_truthy (find_license_policy ctx v policies false) = true
  · simp [h]
  · simp [h]

theorem simple_parses_paren (l : String) (lp : Nat) (inner : List Token)
    (r : String) (rp : Nat) (policies : List Policy) (ctx : Ctx) (P E : String)
    (hinner : or_parses inner policies ctx P E) :
    ∃ P2 E2, simple_parses
      (⟨.LPAREN, l, lp⟩ :: inner ++ [⟨.RPAREN, r, rp⟩]) policies ctx P2 E2 := by
  refine ⟨P, "(" ++ E ++ ")", ?_⟩
  intro tokens pos fuel hseg hbnd hfuel
  have hlen : (⟨.LPAREN, l, lp⟩ :: inner ++ [⟨.RPAREN, r, rp⟩] :
      List Token).length = inner.length + 2 := by
    simp only [List.length_append, List.length_cons, List.length_nil]
  rw [hlen] at hfuel
  obtain ⟨f, rfl⟩ : ∃ f, fuel = f + 1 := ⟨fuel - 1, by omega⟩
  obtain ⟨htok, hseg2⟩ := seg_at_cons tokens pos _ _ hseg
  have hsegi : seg_at tokens (pos + 1) inner :=
    seg_at_append_left tokens (pos + 1) inner _ hseg2
  have hrp : tokens[pos + 1 + inner.length]? = some ⟨.RPAREN, r, rp⟩ := by
    have h0 := seg_at_append_right tokens (pos + 1) inner
      [⟨.RPAREN, r, rp⟩] hseg2 0 (by simp)
    simpa using h0
  have hbi : bnd_or tokens[pos + 1 + inner.length]? := by
    rw [hrp]
    exact bnd_or_of_types ⟨.RPAREN, r, rp⟩ (fun hc => nomatch hc)
      (fun hc => nomatch hc) (fun hc => nomatch hc) (fun hc => nomatch hc)
  have hrec : parse_or_expression f tokens (pos + 1) policies ctx =
      some (P, E, pos + 1 + inner.length) :=
    hinner tokens (pos + 1) f hsegi hbi (by omega)
  rw [parse_simple_lparen_step f tokens pos policies ctx l lp P E
    (pos + 1 + inner.length) r rp htok hrec hrp]
  have hq : pos + (⟨.LPAREN, l, lp⟩ :: inner ++ [⟨.RPAREN, r, rp⟩] :
      List Token).length = pos + 1 + inner.length + 1 := by
    rw [hlen]; omega
  rw [hq]

theorem with_parses_base (ts : List Token) (policies : List Policy) (ctx : Ctx)
    (P E : String) (h : simple_parses ts policies ctx P E) :
    with_parses ts policies ctx P E := by
  intro tokens pos fuel hseg hbnd hfuel
  obtain ⟨f, rfl⟩ : ∃ f, fuel = f + 1 := ⟨fuel - 1, by omega⟩
  have hsimple : parse_simple_expression f tokens pos policies ctx =
      some (P, E, pos + ts.length) :=
    h tokens pos f hseg hbnd.1 (by omega)
  cases htk : tokens[pos + ts.length]? with
  | none => exact parse_with_pass_none f tokens pos policies ctx P E _ hsimple htk
  | some t =>
    exact parse_with_expression_pass f tokens pos policies ctx P E _ t
      hsimple htk (hbnd.2 t htk)

theorem with_parses_exc (ts : List Token) (w : String) (wp : Nat) (t2 : Token)
    (policies : List Policy) (ctx : Ctx) (bp be : String)
    (hty : t2.type = .LICENSE_ID ∨ t2.type = .ADDITION_REF)
    (h : simple_parses ts policies ctx bp be) :
    with_parses (ts ++ [⟨.WITH, w, wp⟩, t2]) policies ctx
      (with_clause_policy ctx policies bp (with_base_id be) t2.value)
      (with_clause_expl ctx policies bp (with_base_id be) t2.value) := by
  intro tokens pos fuel hseg hbnd hfuel
  have hlen : (ts ++ [⟨.WITH, w, wp⟩, t2] : List Token).length =
      ts.length + 2 := by
    simp only [List.length_append, List.length_cons, List.length_nil]
  rw [hlen] at hfuel
  obtain ⟨f, rfl⟩ : ∃ f, fuel = f + 1 := ⟨fuel - 1, by omega⟩
  have hsegl : seg_at tokens pos ts := seg_at_append_left tokens pos ts _ hseg
  have hsegr := seg_at_append_right tokens pos ts [⟨.WITH, w, wp⟩, t2] hseg
  have hw : tokens[pos + ts.length]? = some ⟨.WITH, w, wp⟩ := by
    have h0 := hsegr 0 (by simp)
    simpa using h0
  have hexc : tokens[pos + ts.length + 1]? = some t2 := by
    have h1 := hsegr 1 (by simp)
    simpa using h1
  have hbs : bnd_simple tokens[pos + ts.length]? := by
    rw [hw]
    exact not_after_of_ne ⟨.WITH, w, wp⟩ TokenType.PLUS (fun hc => nomatch hc)
  have hsimple : parse_simple_expression f tokens pos policies ctx =
      some (bp, be, pos + ts.length) :=
    h tokens pos f hsegl hbs (by omega)
  rw [parse_with_exc_step f tokens pos policies ctx bp be (pos + ts.length)
    w wp t2 hsimple hw hexc hty]
  have hq : pos + (ts ++ [⟨.WITH, w, wp⟩, t2] : List Token).length =
      pos + ts.length + 2 := by
    rw [hlen]; omega
  rw [hq]

theorem and_loop_parses_nil (policies : List Policy) (ctx : Ctx) :
    and_loop_parses [] policies ctx [] := by
  intro tokens pos fuel hseg hbnd hfuel
  obtain ⟨f, rfl⟩ : ∃ f, fuel = f + 1 := ⟨fuel - 1, by omega⟩
  cases htk : tokens[pos]? with
  | none => exact and_loop_stop_none f tokens pos policies ctx htk
  | some t => exact and_loop_stop f tokens pos policies ctx t htk (hbnd.2 t htk)

theorem or_loop_parses_nil (policies : List Policy) (ctx : Ctx) :
    or_loop_parses [] policies ctx [] := by
  intro tokens pos fuel hseg hbnd hfuel
  obtain ⟨f, rfl⟩ : ∃ f, fuel = f + 1 := ⟨fuel - 1, by omega⟩
  cases htk : tokens[pos]? with
  | none => exact or_loop_stop_none f tokens pos policies ctx htk
  | some t => exact or_loop_stop f tokens pos policies ctx t htk (hbnd.2 t htk)

theorem and_loop_parses_cons (a : String) (ap : Nat) (ts tail : List Token)
    (policies : List Policy) (ctx : Ctx) (p e : String)
    (rs : List (String × String))
    (hshape : tail = [] ∨ ∃ u tail2, tail = u :: tail2 ∧ u.type = .AND)
    (hw : with_parses ts policies ctx p e)
    (hl : and_loop_parses tail policies ctx rs) :
    and_loop_parses (⟨.AND, a, ap⟩ :: ts ++ tail) policies ctx ((p, e) :: rs) := by
  intro tokens pos fuel hseg hbnd hfuel
  have hlen : (⟨.AND, a, ap⟩ :: ts ++ tail : List Token).length =
      ts.length + tail.length + 1 := by
    simp only [List.length_append, List.length_cons]
    omega
  rw [hlen] at hfuel hbnd ⊢
  obtain ⟨f, rfl⟩ : ∃ f, fuel = f + 1 := ⟨fuel - 1, by omega⟩
  obtain ⟨htok, hseg2⟩ := seg_at_cons tokens pos _ _ hseg
  have hsegl : seg_at tokens (pos + 1) ts :=
    seg_at_append_left tokens (pos + 1) ts tail hseg2
  have hsegr : seg_at tokens (pos + 1 + ts.length) tail :=
    seg_at_append_right tokens (pos + 1) ts tail hseg2
  have hbw : bnd_with tokens[pos + 1 + ts.length]? := by
    cases hshape with
    | inl h0 =>
      subst h0
      have hq : pos + 1 + ts.length =
          pos + (ts.length + List.length ([] : List Token) + 1) := by
        simp only [List.length_nil]
        omega
      rw [hq]
      exact hbnd.1
    | inr h0 =>
      obtain ⟨u, tail2, rfl, hty⟩ := h0
      have hu : tokens[pos + 1 + ts.length]? = some u := by
        have h0 := hsegr 0 (by simp)
        simpa using h0
      rw [hu]
      exact ⟨not_after_of_ne u TokenType.PLUS (by rw [hty]; intro hc; exact nomatch hc),
        not_after_of_ne u TokenType.WITH (by rw [hty]; intro hc; exact nomatch hc)⟩
  have hwith : parse_with_expression f tokens (pos + 1) policies ctx =
      some (p, e, pos + 1 + ts.length) :=
    hw tokens (pos + 1) f hsegl hbw (by omega)
  have hba : bnd_and tokens[pos + 1 + ts.length + tail.length]? := by
    have hq : pos + 1 + ts.length + tail.length =
        pos + (ts.length + tail.length + 1) := by omega
    rw [hq]
    exact hbnd
  have hloop : and_loop f tokens (pos + 1 + ts.length) policies ctx =
      some (rs, pos + 1 + ts.length + tail.length) :=
    hl tokens (pos + 1 + ts.length) f hsegr hba (by omega)
  rw [and_loop_iter f tokens pos policies ctx ⟨.AND, a, ap⟩ p e
    (pos + 1 + ts.length) rs (pos + 1 + ts.length + tail.length) htok rfl
    hwith hloop]
  have hq2 : pos + (ts.length + tail.length + 1) =
      pos + 1 + ts.length + tail.length := by omega
  rw [hq2]

theorem or_loop_parses_cons (o : String) (op : Nat) (ts tail : List Token)
    (policies : List Policy) (ctx : Ctx) (p e : String)
    (rs : List (String × String))
    (hshape : tail = [] ∨ ∃ u tail2, tail = u :: tail2 ∧ u.type = .OR)
    (hw : and_parses ts policies ctx p e)
    (hl : or_loop_parses tail policies ctx rs) :
    or_loop_parses (⟨.OR, o, op⟩ :: ts ++ tail) policies ctx ((p, e) :: rs) := by
  intro tokens pos fuel hseg hbnd hfuel
  have hlen : (⟨.OR, o, op⟩ :: ts ++ tail : List Token).length =
      ts.length + tail.length + 1 := by
    simp only [List.length_append, List.length_cons]
    omega
  rw [hlen] at hfuel hbnd ⊢
  obtain ⟨f, rfl⟩ : ∃ f, fuel = f + 1 := ⟨fuel - 1, by omega⟩
  obtain ⟨htok, hseg2⟩ := seg_at_cons tokens pos _ _ hseg
  have hsegl : seg_at tokens (pos + 1) ts :=
    seg_at_append_left tokens (pos + 1) ts tail hseg2
  have hsegr : seg_at tokens (pos + 1 + ts.length) tail :=
    seg_at_append_right tokens (pos + 1) ts tail hseg2
  have hba : bnd_and tokens[pos + 1 + ts.length]? := by
    cases hshape with
    | inl h0 =>
      subst h0
      have hq : pos + 1 + ts.length =
          pos + (ts.length + List.length ([] : List Token) + 1) := by
        simp only [List.length_nil]
        omega
      rw [hq]
      exact hbnd.1
    | inr h0 =>
      obtain ⟨u, tail2, rfl, hty⟩ := h0
      have hu : tokens[pos + 1 + ts.length]? = some u := by
        have h0 := hsegr 0 (by simp)
        simpa using h0
      rw [hu]
      exact ⟨⟨not_after_of_ne u TokenType.PLUS (by rw [hty]; intro hc; exact nomatch hc),
        not_after_of_ne u TokenType.WITH (by rw [hty]; intro hc; exact nomatch hc)⟩,
        not_after_of_ne u TokenType.AND (by rw [hty]; intro hc; exact nomatch hc)⟩
  have hand : parse_and_expression f tokens (pos + 1) policies ctx =
      some (p, e, pos + 1 + ts.length) :=
    hw tokens (pos + 1) f hsegl hba (by omega)
  have hbo : bnd_or tokens[pos + 1 + ts.length + tail.length]? := by
    have hq : pos + 1 + ts.length + tail.length =
        pos + (ts.length + tail.length + 1) := by omega
    rw [hq]
    exact hbnd
  have hloop : or_loop f tokens (pos + 1 + ts.length) policies ctx =
      some (rs, pos + 1 + ts.length + tail.length) :=
    hl tokens (pos + 1 + ts.length) f hsegr hbo (by omega)
  rw [or_loop_iter f tokens pos policies ctx ⟨.OR, o, op⟩ p e
    (pos + 1 + ts.length) rs (pos + 1 + ts.length + tail.length) htok rfl
    hand hloop]
  have hq2 : pos + (ts.length + tail.length + 1) =
      pos + 1 + ts.length + tail.length := by omega
  rw [hq2]

theorem agg_and_step (f : Nat) (tokens : List Token) (pos : Nat)
    (policies : List Policy) (ctx : Ctx) (lp le : String) (pos1 : Nat)
    (rs : List (String × String)) (pos2 : Nat)
    (hleft : parse_with_expression f tokens pos policies ctx = some (lp, le, pos1))
    (hloop : and_loop f tokens pos1 policies ctx = some (rs, pos2)) :
    parse_and_expression (f + 1) tokens pos policies ctx =
      some ((agg_and lp le rs).1, (agg_and lp le rs).2, pos2) := by
  rw [parse_and_expression_step f tokens pos policies ctx lp le pos1 rs pos2
    hleft hloop]
  cases rs with
  | nil => simp [agg_and]
  | cons r rs2 =>
    simp [agg_and]
    split_ifs <;> rfl

theorem agg_or_step (f : Nat) (tokens : List Token) (pos : Nat)
    (policies : List Policy) (ctx : Ctx) (lp le : String) (pos1 : Nat)
    (rs : List (String × String)) (pos2 : Nat)
    (hleft : parse_and_expression f tokens pos policies ctx = some (lp, le, pos1))
    (hloop : or_loop f tokens pos1 policies ctx = some (rs, pos2)) :
    parse_or_expression (f + 1) tokens pos policies ctx =
      some ((agg_or lp le rs).1, (agg_or lp le rs).2, pos2) := by
  rw [parse_or_expression_step f tokens pos policies ctx lp le pos1 rs pos2
    hleft hloop]
  cases rs with
  | nil => simp [agg_or]
  | cons r rs2 =>
    simp [agg_or]
    split_ifs <;> rfl

theorem and_parses_mk (ts tail : List Token) (policies : List Policy)
    (ctx : Ctx) (lp le : String) (rs : List (String × String))
    (hshape : tail = [] ∨ ∃ u tail2, tail = u :: tail2 ∧ u.type = .AND)
    (hw : with_parses ts policies ctx lp le)
    (hl : and_loop_parses tail policies ctx rs) :
    and_parses (ts ++ tail) policies ctx (agg_and lp le rs).1
      (agg_and lp le rs).2 := by
  intro tokens pos fuel hseg hbnd hfuel
  have hlen : (ts ++ tail : List Token).length = ts.length + tail.length :=
    List.length_append ts tail
  rw [hlen] at hfuel hbnd ⊢
  obtain ⟨f, rfl⟩ : ∃ f, fuel = f + 1 := ⟨fuel - 1, by omega⟩
  have hsegl : seg_at tokens pos ts := seg_at_append_left tokens pos ts tail hseg
  have hsegr : seg_at tokens (pos + ts.length) tail :=
    seg_at_append_right tokens pos ts tail hseg
  have hbw : bnd_with tokens[pos + ts.length]? := by
    cases hshape with
    | inl h0 =>
      subst h0
      have hq : pos + ts.length =
          pos + (ts.length + List.length ([] : List Token)) := by
        simp only [List.length_nil]
        omega
      rw [hq]
      exact hbnd.1
    | inr h0 =>
      obtain ⟨u, tail2, rfl, hty⟩ := h0
      have hu : tokens[pos + ts.length]? = some u := by
        have h0 := hsegr 0 (by simp)
        simpa using h0
      rw [hu]
      exact ⟨not_after_of_ne u TokenType.PLUS (by rw [hty]; intro hc; exact nomatch hc),
        not_after_of_ne u TokenType.WITH (by rw [hty]; intro hc; exact nomatch hc)⟩
  have hwith : parse_with_expression f tokens pos policies ctx =
      some (lp, le, pos + ts.length) := hw tokens pos f hsegl hbw (by omega)
  have hba : bnd_and tokens[pos + ts.length + tail.length]? := by
    have hq : pos + ts.length + tail.length =
        pos + (ts.length + tail.length) := by omega
    rw [hq]
    exact hbnd
  have hloop : and_loop f tokens (pos + ts.length) policies ctx =
      some (rs, pos + ts.length + tail.length) :=
    hl tokens (pos + ts.length) f hsegr hba (by omega)
  rw [agg_and_step f tokens pos policies ctx lp le (pos + ts.length) rs
    (pos + ts.length + tail.length) hwith hloop]
  have hq2 : pos + (ts.length + tail.length) =
      pos + ts.length + tail.length := by omega
  rw [hq2]

theorem or_parses_mk (ts tail : List Token) (policies : List Policy)
    (ctx : Ctx) (lp le : String) (rs : List (String × String))
    (hshape : tail = [] ∨ ∃ u tail2, tail = u :: tail2 ∧ u.type = .OR)
    (hw : and_parses ts policies ctx lp le)
    (hl : or_loop_parses tail policies ctx rs) :
    or_parses (ts ++ tail) policies ctx (agg_or lp le rs).1
      (agg_or lp le rs).2 := by
  intro tokens pos fuel hseg hbnd hfuel
  have hlen : (ts ++ tail : List Token).length = ts.length + tail.length :=
    List.length_append ts tail
  rw [hlen] at hfuel hbnd ⊢
  obtain ⟨f, rfl⟩ : ∃ f, fuel = f + 1 := ⟨fuel - 1, by omega⟩
  have hsegl : seg_at tokens pos ts := seg_at_append_left tokens pos ts tail hseg
  have hsegr : seg_at tokens (pos + ts.length) tail :=
    seg_at_append_right tokens pos ts tail hseg
  have hba : bnd_and tokens[pos + ts.length]? := by
    cases hshape with
    | inl h0 =>
      subst h0
      have hq : pos + ts.length =
          pos + (ts.length + List.length ([] : List Token)) := by
        simp only [List.length_nil]
        omega
      rw [hq]
      exact hbnd.1
    | inr h0 =>
      obtain ⟨u, tail2, rfl, hty⟩ := h0
      have hu : tokens[pos + ts.length]? = some u := by
        have h0 := hsegr 0 (by simp)
        simpa using h0
      rw [hu]
      exact ⟨⟨not_after_of_ne u TokenType.PLUS (by rw [hty]; intro hc; exact nomatch hc),
        not_after_of_ne u TokenType.WITH (by rw [hty]; intro hc; exact nomatch hc)⟩,
        not_after_of_ne u TokenType.AND (by rw [hty]; intro hc; exact nomatch hc)⟩
  have hand : parse_and_expression f tokens pos policies ctx =
      some (lp, le, pos + ts.length) := hw tokens pos f hsegl hba (by omega)
  have hbo : bnd_or tokens[pos + ts.length + tail.length]? := by
    have hq : pos + ts.length + tail.length =
        pos + (ts.length + tail.length) := by omega
    rw [hq]
    exact hbnd
  have hloop : or_loop f tokens (pos + ts.length) policies ctx =
      some (rs, pos + ts.length + tail.length) :=
    hl tokens (pos + ts.length) f hsegr hbo (by omega)
  rw [agg_or_step f tokens pos policies ctx lp le (pos + ts.length) rs
    (pos + ts.length + tail.length) hand hloop]
  have hq2 : pos + (ts.length + tail.length) =
      pos + ts.length + tail.length := by omega
  rw [hq2]

theorem or_nonempty : ∀ ts, OrExpr ts → ts ≠ []
  | _, .mk ts2 tail ha ht => fun hc =>
    and_nonempty ts2 ha (List.append_eq_nil.mp hc).1

theorem simple_cases : ∀ ts, SimpleExpr ts →
    (∃ v p, ts = [⟨.LICENSE_ID, v, p⟩]) ∨
    (∃ v p w q, ts = [⟨.LICENSE_ID, v, p⟩, ⟨.PLUS, w, q⟩]) ∨
    (∃ v p, ts = [⟨.LICENSE_REF, v, p⟩]) ∨
    (∃ l lp inner r rp, ts = ⟨.LPAREN, l, lp⟩ :: inner ++ [⟨.RPAREN, r, rp⟩] ∧
      OrExpr inner)
  | _, .id v p => Or.inl ⟨v, p, rfl⟩
  | _, .idPlus v p w q => Or.inr (Or.inl ⟨v, p, w, q, rfl⟩)
  | _, .ref v p => Or.inr (Or.inr (Or.inl ⟨v, p, rfl⟩))
  | _, .paren l lp inner r rp hin =>
    Or.inr (Or.inr (Or.inr ⟨l, lp, inner, r, rp, rfl, hin⟩))

theorem with_cases : ∀ ts, WithExpr ts →
    SimpleExpr ts ∨
    ∃ ts2 w wp t2, ts = ts2 ++ [⟨.WITH, w, wp⟩, t2] ∧ SimpleExpr ts2 ∧
      (t2.type = .LICENSE_ID ∨ t2.type = .ADDITION_REF)
  | _, .base ts hs => Or.inl hs
  | _, .withExc ts w wp t2 hs hty => Or.inr ⟨ts, w, wp, t2, rfl, hs, hty⟩

theorem and_tail_cases : ∀ ts, AndTail ts →
    ts = [] ∨ ∃ a ap ts2 tail, ts = ⟨.AND, a, ap⟩ :: ts2 ++ tail ∧
      WithExpr ts2 ∧ AndTail tail
  | _, .nil => Or.inl rfl
  | _, .cons a ap ts2 tl hw ht => Or.inr ⟨a, ap, ts2, tl, rfl, hw, ht⟩

theorem and_cases : ∀ ts, AndExpr ts →
    ∃ ts2 tail, ts = ts2 ++ tail ∧ WithExpr ts2 ∧ AndTail tail
  | _, .mk ts2 tail hw ht => ⟨ts2, tail, rfl, hw, ht⟩

theorem or_tail_cases : ∀ ts, OrTail ts →
    ts = [] ∨ ∃ o op ts2 tail, ts = ⟨.OR, o, op⟩ :: ts2 ++ tail ∧
      AndExpr ts2 ∧ OrTail tail
  | _, .nil => Or.inl rfl
  | _, .cons o op ts2 tl ha ht => Or.inr ⟨o, op, ts2, tl, rfl, ha, ht⟩

theorem or_cases : ∀ ts, OrExpr ts →
    ∃ ts2 tail, ts = ts2 ++ tail ∧ AndExpr ts2 ∧ OrTail tail
  | _, .mk ts2 tail ha ht => ⟨ts2, tail, rfl, ha, ht⟩

/-- Joint stability of all grammar levels: every grammar-complete token
segment parses, at its own level, to a stream-independent result, stopping
exactly at the segment end — in every stream that carries the segment and
whose following token is not an operator joining onto it. -/
theorem grammar_stable (n : Nat) : ∀ ts : List Token, ts.length ≤ n →
    ∀ policies ctx,
    (SimpleExpr ts → ∃ p e, simple_parses ts policies ctx p e) ∧
    (WithExpr ts → ∃ p e, with_parses ts policies ctx p e) ∧
    (AndTail ts → ∃ rs, and_loop_parses ts policies ctx rs) ∧
    (AndExpr ts → ∃ p e, and_parses ts policies ctx p e) ∧
    (OrTail ts → ∃ rs, or_loop_parses ts policies ctx rs) ∧
    (OrExpr ts → ∃ p e, or_parses ts policies ctx p e) := by
  induction n with
  | zero =>
    intro ts hlen policies ctx
    have hts : ts = [] := List.length_eq_zero.mp (by omega)
    subst hts
    refine ⟨?_, ?_, ?_, ?_, ?_, ?_⟩
    · intro h; exact absurd rfl (simple_nonempty [] h)
    · intro h; exact absurd rfl (with_nonempty [] h)
    · intro h; exact ⟨[], and_loop_parses_nil policies ctx⟩
    · intro h; exact absurd rfl (and_nonempty [] h)
    · intro h; exact ⟨[], or_loop_parses_nil policies ctx⟩
    · intro h; exact absurd rfl (or_nonempty [] h)
  | succ n ih =>
    intro ts hlen policies ctx
    have hS : SimpleExpr ts → ∃ p e, simple_parses ts policies ctx p e := by
      intro h
      rcases simple_cases ts h with ⟨v, p, rfl⟩ | ⟨v, p, w, q, rfl⟩ |
        ⟨v, p, rfl⟩ | ⟨l, lp, inner, r, rp, rfl, hin⟩
      · exact simple_parses_id v p policies ctx
      · exact simple_parses_idPlus v p w q policies ctx
      · exact simple_parses_ref v p policies ctx
      · have hinlen : inner.length ≤ n := by
          simp only [List.length_cons, List.length_append, List.length_nil] at hlen
          omega
        obtain ⟨P, E, hPE⟩ := (ih inner hinlen policies ctx).2.2.2.2.2 hin
        exact simple_parses_paren l lp inner r rp policies ctx P E hPE
    have hW : WithExpr ts → ∃ p e, with_parses ts policies ctx p e := by
      intro h
      rcases with_cases ts h with hs | ⟨ts2, w, wp, t2, rfl, hs, hty⟩
      · obtain ⟨P, E, hPE⟩ := hS hs
        exact ⟨P, E, with_parses_base ts policies ctx P E hPE⟩
      · have hlen2 : ts2.length ≤ n := by
          simp only [List.length_append, List.length_cons, List.length_nil] at hlen
          omega
        obtain ⟨bp, be, hPE⟩ := (ih ts2 hlen2 policies ctx).1 hs
        exact ⟨_, _, with_parses_exc ts2 w wp t2 policies ctx bp be hty hPE⟩
    have hAT : AndTail ts → ∃ rs, and_loop_parses ts policies ctx rs := by
      intro h
      rcases and_tail_cases ts h with rfl | ⟨a, ap, ts2, tail, rfl, hw2, ht2⟩
      · exact ⟨[], and_loop_parses_nil policies ctx⟩
      · have hl1 : ts2.length ≤ n := by
          simp only [List.length_cons, List.length_append] at hlen
          omega
        have hl2 : tail.length ≤ n := by
          simp only [List.length_cons, List.length_append] at hlen
          omega
        obtain ⟨p, e, hpe⟩ := (ih ts2 hl1 policies ctx).2.1 hw2
        obtain ⟨rs, hrs⟩ := (ih tail hl2 policies ctx).2.2.1 ht2
        exact ⟨(p, e) :: rs, and_loop_parses_cons a ap ts2 tail policies ctx
          p e rs (and_tail_shape tail ht2) hpe hrs⟩
    have hA : AndExpr ts → ∃ p e, and_parses ts policies ctx p e := by
      intro h
      obtain ⟨ts2, tail, rfl, hw2, ht2⟩ := and_cases _ h
      by_cases hc : ts2.length ≤ n
      · have hl2 : tail.length ≤ n := by
          have h1 : 0 < ts2.length := List.length_pos.mpr (with_nonempty ts2 hw2)
          rw [List.length_append] at hlen
          omega
        obtain ⟨lp, le, hpe⟩ := (ih ts2 hc policies ctx).2.1 hw2
        obtain ⟨rs, hrs⟩ := (ih tail hl2 policies ctx).2.2.1 ht2
        exact ⟨_, _, and_parses_mk ts2 tail policies ctx lp le rs
          (and_tail_shape tail ht2) hpe hrs⟩
      · have htail : tail = [] := by
          rw [List.length_append] at hlen
          exact List.length_eq_zero.mp (by omega)
        subst htail
        rw [List.append_nil] at hW ⊢
        obtain ⟨lp, le, hpe⟩ := hW hw2
        have h0 := and_parses_mk ts2 [] policies ctx lp le []
          (Or.inl rfl) hpe (and_loop_parses_nil policies ctx)
        rw [List.append_nil] at h0
        exact ⟨lp, le, h0⟩
    have hOT : OrTail ts → ∃ rs, or_loop_parses ts policies ctx rs := by
      intro h
      rcases or_tail_cases ts h with rfl | ⟨o, op, ts2, tail, rfl, ha2, ht2⟩
      · exact ⟨[], or_loop_parses_nil policies ctx⟩
      · have hl1 : ts2.length ≤ n := by
          simp only [List.length_cons, List.length_append] at hlen
          omega
        have hl2 : tail.length ≤ n := by
          simp only [List.length_cons, List.length_append] at hlen
          omega
        obtain ⟨p, e, hpe⟩ := (ih ts2 hl1 policies ctx).2.2.2.1 ha2
        obtain ⟨rs, hrs⟩ := (ih tail hl2 policies ctx).2.2.2.2.1 ht2
        exact ⟨(p, e) :: rs, or_loop_parses_cons o op ts2 tail policies ctx
          p e rs (or_tail_shape tail ht2) hpe hrs⟩
    have hO : OrExpr ts → ∃ p e, or_parses ts policies ctx p e := by
      intro h
      obtain ⟨ts2, tail, rfl, ha2, ht2⟩ := or_cases _ h
      by_cases hc : ts2.length ≤ n
      · have hl2 : tail.length ≤ n := by
          have h1 : 0 < ts2.length := List.length_pos.mpr (and_nonempty ts2 ha2)
          rw [List.length_append] at hlen
          omega
        obtain ⟨lp, le, hpe⟩ := (ih ts2 hc policies ctx).2.2.2.1 ha2
        obtain ⟨rs, hrs⟩ := (ih tail hl2 policies ctx).2.2.2.2.1 ht2
        exact ⟨_, _, or_parses_mk ts2 tail policies ctx lp le rs
          (or_tail_shape tail ht2) hpe hrs⟩
      · have htail : tail = [] := by
          rw [List.length_append] at hlen
          exact List.length_eq_zero.mp (by omega)
        subst htail
        rw [List.append_nil] at hA ⊢
        obtain ⟨lp, le, hpe⟩ := hA ha2
        have h0 := or_parses_mk ts2 [] policies ctx lp le []
          (Or.inl rfl) hpe (or_loop_parses_nil policies ctx)
        rw [List.append_nil] at h0
        exact ⟨lp, le, h0⟩
    exact ⟨hS, hW, hAT, hA, hOT, hO⟩

/-- C10: `parse_and_evaluate` never checks that the parser consumed the whole
token stream.  Whenever the input tokenizes to a grammar-complete leading
expression (any license id, id`+`, LicenseRef, WITH form, AND/OR chain or
parenthesized compound) followed by a trailing token that no operator joins
onto it — e.g. an unmatched closing parenthesis or a second license id — the
evaluator returns the leading expression's result: the very pair the prefix
alone (terminated by EOF, as tokenizing the prefix would) yields, with no
error. -/
theorem c10_trailing_tokens_ignored (fuel : Nat) (ctx : Ctx) (s : String)
    (policies : List Policy) (ts : List Token) (t : Token) (us : List Token)
    (hne : s ≠ "")
    (hsent : s ∉ no_license_sentinels)
    (hcomb : alias_lookup ctx.combinedAliases (py_lower (py_strip s)) = none)
    (htok : tokenize (apply_aliases_to_expression ctx (py_strip s)) =
      ts ++ t :: us)
    (hwf : OrExpr ts)
    (h1 : t.type ≠ .PLUS) (h2 : t.type ≠ .WITH)
    (h3 : t.type ≠ .AND) (h4 : t.type ≠ .OR) :
    ∃ p e, parse_and_evaluate (fuel + 1) ctx s policies = some (p, e) ∧
      ∀ fuelb, 4 * ts.length + 4 ≤ fuelb →
        parse_expression fuelb (ts ++ [⟨.EOF, "", 0⟩]) 0 policies ctx =
          some (p, e, ts.length) := by
  obtain ⟨p, e, hor⟩ :=
    (grammar_stable ts.length ts le_rfl policies ctx).2.2.2.2.2 hwf
  refine ⟨p, e, ?_, ?_⟩
  · have hcond : ¬ ((s == "" || no_license_sentinels.contains s) = true) := by
      intro hc
      rcases Bool.or_eq_true_iff.mp hc with hc | hc
      · exact hne (beq_iff_eq.mp hc)
      · exact hsent (List.mem_of_elem_eq_true hc)
    have hseg : seg_at (ts ++ t :: us) 0 ts := seg_at_prefix ts (t :: us)
    have hbnd : bnd_or (ts ++ t :: us)[0 + ts.length]? := by
      have hx : (ts ++ t :: us)[0 + ts.length]? = some t := by
        rw [Nat.zero_add, List.getElem?_append_right (le_refl ts.length)]
        simp
      rw [hx]
      exact bnd_or_of_types t h1 h2 h3 h4
    have hjunk : parse_expression (grammar_fuel (ts ++ t :: us))
        (ts ++ t :: us) 0 policies ctx = some (p, e, 0 + ts.length) :=
      hor (ts ++ t :: us) 0 (grammar_fuel (ts ++ t :: us)) hseg hbnd
        (by simp only [grammar_fuel, List.length_append, List.length_cons]; omega)
    rw [parse_and_evaluate, if_neg hcond]
    simp only [hcomb, htok, hjunk]
  · intro fuelb hfb
    have hseg : seg_at (ts ++ [⟨.EOF, "", 0⟩]) 0 ts :=
      seg_at_prefix ts [⟨.EOF, "", 0⟩]
    have hbnd : bnd_or (ts ++ [⟨.EOF, "", 0⟩])[0 + ts.length]? := by
      have hx : (ts ++ [⟨.EOF, "", 0⟩])[0 + ts.length]? =
          some ⟨.EOF, "", 0⟩ := by
        rw [Nat.zero_add, List.getElem?_append_right (le_refl ts.length)]
        simp
      rw [hx]
      exact bnd_or_of_types ⟨.EOF, "", 0⟩ (fun hc => nomatch hc)
        (fun hc => nomatch hc) (fun hc => nomatch hc) (fun hc => nomatch hc)
    have h0 : parse_or_expression fuelb (ts ++ [⟨.EOF, "", 0⟩]) 0 policies ctx =
        some (p, e, 0 + ts.length) :=
      hor (ts ++ [⟨.EOF, "", 0⟩]) 0 fuelb hseg hbnd (by omega)
    rw [Nat.zero_add] at h0
    simp only [parse_expression]
    exact h0

/-- Witness for C10: `(MIT OR GPL-3.0) ) X` — a complete parenthesized OR
expression followed by an unmatched closing parenthesis and a stray license
id — evaluates with no error, to exactly the pair that parsing the prefix
`(MIT OR GPL-3.0)` alone (followed by EOF) produces. -/
theorem c10_trailing_tokens_ignored_witness :
    ∃ p e, parse_and_evaluate 1 (mk_ctx [] []) "(MIT OR GPL-3.0) ) X"
        [⟨"MIT", "allow"⟩, ⟨"GPL-3.0", "allow"⟩] = some (p, e) ∧
      ∀ fuelb, 24 ≤ fuelb →
        parse_expression fuelb [⟨.LPAREN, "(", 0⟩, ⟨.LICENSE_ID, "MIT", 1⟩,
          ⟨.OR, "OR", 5⟩, ⟨.LICENSE_ID, "GPL-3.0", 8⟩, ⟨.RPAREN, ")", 15⟩,
          ⟨.EOF, "", 0⟩] 0 [⟨"MIT", "allow"⟩, ⟨"GPL-3.0", "allow"⟩]
          (mk_ctx [] []) = some (p, e, 5) := by
  have hMIT : AndExpr [⟨.LICENSE_ID, "MIT", 1⟩] :=
    AndExpr.mk [⟨.LICENSE_ID, "MIT", 1⟩] []
      (WithExpr.base _ (SimpleExpr.id "MIT" 1)) AndTail.nil
  have hGPL : AndExpr [⟨.LICENSE_ID, "GPL-3.0", 8⟩] :=
    AndExpr.mk [⟨.LICENSE_ID, "GPL-3.0", 8⟩] []
      (WithExpr.base _ (SimpleExpr.id "GPL-3.0" 8)) AndTail.nil
  have hinner : OrExpr [⟨.LICENSE_ID, "MIT", 1⟩, ⟨.OR, "OR", 5⟩,
      ⟨.LICENSE_ID, "GPL-3.0", 8⟩] :=
    OrExpr.mk [⟨.LICENSE_ID, "MIT", 1⟩]
      [⟨.OR, "OR", 5⟩, ⟨.LICENSE_ID, "GPL-3.0", 8⟩] hMIT
      (OrTail.cons "OR" 5 [⟨.LICENSE_ID, "GPL-3.0", 8⟩] [] hGPL OrTail.nil)
  have hsimple : SimpleExpr [⟨.LPAREN, "(", 0⟩, ⟨.LICENSE_ID, "MIT", 1⟩,
      ⟨.OR, "OR", 5⟩, ⟨.LICENSE_ID, "GPL-3.0", 8⟩, ⟨.RPAREN, ")", 15⟩] :=
    SimpleExpr.paren "(" 0 [⟨.LICENSE_ID, "MIT", 1⟩, ⟨.OR, "OR", 5⟩,
      ⟨.LICENSE_ID, "GPL-3.0", 8⟩] ")" 15 hinner
  have hwf : OrExpr [⟨.LPAREN, "(", 0⟩, ⟨.LICENSE_ID, "MIT", 1⟩,
      ⟨.OR, "OR", 5⟩, ⟨.LICENSE_ID, "GPL-3.0", 8⟩, ⟨.RPAREN, ")", 15⟩] :=
    OrExpr.mk _ [] (AndExpr.mk _ [] (WithExpr.base _ hsimple) AndTail.nil)
      OrTail.nil
  exact c10_trailing_tokens_ignored 0 (mk_ctx [] []) "(MIT OR GPL-3.0) ) X"
    [⟨"MIT", "allow"⟩, ⟨"GPL-3.0", "allow"⟩]
    [⟨.LPAREN, "(", 0⟩, ⟨.LICENSE_ID, "MIT", 1⟩, ⟨.OR, "OR", 5⟩,
      ⟨.LICENSE_ID, "GPL-3.0", 8⟩, ⟨.RPAREN, ")", 15⟩]
    ⟨.RPAREN, ")", 17⟩ [⟨.LICENSE_ID, "X", 19⟩, ⟨.EOF, "", 20⟩]
    (by decide) (by decide) (by decide) (by decide) hwf
    (by decide) (by decide) (by decide) (by decide)

end SbomAudit
